import Mathlib

/-!
# term-shapes: the drawing core of `src/print.c`

A shallow embedding of `movexy`, `print_edges`, `print_vertices` and
`print_shape`.

Conventions of the embedding.

* C `double` values are elements of an arbitrary linearly ordered field `R`
  with a floor function: `ℝ` for the statements about real numbers, `ℚ` for
  the evaluations on concrete shapes. The arithmetic is exact: the rounding
  that binary64 applies after each product, quotient and sum is not
  represented. The statements below are about which samples are taken, in
  which order, into which buffer and through which function they are mapped;
  a coordinate that lies within a rounding error of a cell boundary can fall
  in the neighbouring cell when computed in binary64.
* C arrays reached through a pointer (`vertices`, `edges`, `fronts`,
  `behinds`) are total maps from the index to the stored value; keeping the
  indices inside the allocated blocks is the caller's obligation.
* The curses screen is replaced by the list of `mvprintw` calls, in the order
  in which they are made. The macro `USE_NCURSES`, defined outside `print.c`,
  is taken to be enabled, as the specification describes the buffering and the
  drawing it guards.
* `(int)` on a `double` is rounding toward zero, into the unbounded integers:
  `int_cast` is the C conversion for values strictly between `-2 ^ 31 - 1` and
  `2 ^ 31`, where its result fits an `int` (`int_cast_fits_int`); outside that
  range the C conversion is undefined and the embedding says nothing about
  it. The overflow of the loop counters is outside the embedding as well.
* What `print.c` takes from its headers and collaborators (`SCALE`, the window
  extent read by `getmaxyx`, the square root under `vector3_mag`, and
  `occlude_point`) is gathered in the record `world`.
-/

namespace TermShapes

/-! ## Data model -/

/-- A point (or displacement) of space: `point3` of `vector.h`. -/
structure point3 (R : Type) where
  x : R
  y : R
  z : R

/-- An edge, `struct edge`: the two vertex indices `edge[0]` and `edge[1]`. -/
structure edge where
  edge0 : Int
  edge1 : Int
deriving DecidableEq

/-- A screen position as stored in the scratch buffers `fronts` and `behinds`
(fields `x`, the column, and `y`, the row). The values stored are the results
of `movexy`, which are integers. -/
structure cell where
  x : Int
  y : Int
deriving DecidableEq

/-- Modelled from the spec: the occlusion mode enumeration of `term_shapes.h`,
which is not part of `print.c`. `NONE` is the zero (false) value, `CONVEX` is
the mode whose occluded points are discarded, `OTHER` stands for every further
non-zero mode. -/
inductive occ_method where
  | NONE
  | CONVEX
  | OTHER
deriving DecidableEq

/-- The fields of `struct shape` that `print.c` reads or writes. `num_v`,
`num_e` and `e_density` are counts (the source calls `e_density` a natural
number). -/
structure shape (R : Type) where
  num_v : Nat
  num_e : Nat
  vertices : Int → point3 R
  edges : Nat → edge
  e_density : Nat
  occlusion : occ_method
  print_edges : Bool
  print_vertices : Bool
  front_symbol : Char
  rear_symbol : Char
  fronts : Int → cell
  behinds : Int → cell

/-- What `print.c` consults outside itself.

* `SCALE`: the constant of `term_shapes.h`.
* `winx`, `winy`: the extent `getmaxyx (stdscr, winy, winx)` reports.
* `sqrt`: the square root used by `vector3_mag`.
* `occlude_point`: the occlusion test, a function of the shape, the point and
  the edge context; its value is the one held by `occlude_val` (the results of
  the test fit a `char`). The test is given the shape as it was handed to
  `print_shape`: it does not look at the scratch buffers being filled. -/
structure world (R : Type) where
  SCALE : R
  winx : Int
  winy : Int
  sqrt : R → R
  occlude_point : shape R → point3 R → edge → Int

/-- One call `mvprintw (row, col, fmt, ...)`: the characters of `text` are
written from column `col` on, left to right, on line `row`. -/
structure draw where
  row : Int
  col : Int
  text : List Char
deriving DecidableEq

/-- The locals `fronts_index`, `behinds_index` of `print_edges` together with
the two scratch buffers they index. -/
structure edge_bufs where
  fronts : Int → cell
  behinds : Int → cell
  fronts_index : Int
  behinds_index : Int

section Code

variable {R : Type} [LinearOrderedField R] [FloorRing R]

/-! ## `movexy` -/

/-- The C conversion `(int) v` of a `double`: the fractional part is dropped,
so the value moves toward zero. The result is an unbounded integer; it is the
value of the C conversion when `-2 ^ 31 - 1 < v < 2 ^ 31`, and stands for
nothing the code computes outside that range. -/
def int_cast (v : R) : Int :=
  if 0 ≤ v then ⌊v⌋ else ⌈v⌉

/-- Lines 12-26. The pair returned is `(movex, movey)`, the values stored back
through `x` and `y`. The two expressions are those of lines 21 and 22,
evaluated exactly: the code rounds each intermediate product and sum to
binary64 before the cast, so on a value within a rounding error of an integer
the code can return the neighbouring cell. -/
def movexy (SCALE : R) (winx winy : Int) (x y : R) : Int × Int :=
  (int_cast ((x * SCALE * (winy : R)) + (0.5 * (winx : R))),
   int_cast (-(y * SCALE * 0.5 * (winy : R)) + (0.5 * (winy : R))))

/-! ## Vector operations -/

/-- Modelled from the spec: `vector3_sub` of `vector.h`, the componentwise
difference ("supports subtraction"). -/
def vector3_sub (a b : point3 R) : point3 R :=
  ⟨a.x - b.x, a.y - b.y, a.z - b.z⟩

/-- Modelled from the spec: `vector3_mag` of `vector.h`, the magnitude `|v|`,
the square root of the sum of the squared components. -/
def vector3_mag (sqrt : R → R) (v : point3 R) : R :=
  sqrt (v.x * v.x + v.y * v.y + v.z * v.z)

/-- Modelled from the spec: `vector3_unit` of `vector.h`, `v / |v|`. -/
def vector3_unit (sqrt : R → R) (v : point3 R) : point3 R :=
  ⟨v.x / vector3_mag sqrt v, v.y / vector3_mag sqrt v, v.z / vector3_mag sqrt v⟩

/-! ## `print_edges` -/

/-- Lines 47-69: the point `(x, y, z)` computed for edge `i` at step `k`. -/
def edge_point (sqrt : R → R) (s : shape R) (i k : Nat) : point3 R :=
  let p0 := s.vertices (s.edges i).edge0
  let v := vector3_sub (s.vertices (s.edges i).edge1) (s.vertices (s.edges i).edge0)
  let v_len := vector3_mag sqrt v
  let u := vector3_unit sqrt v
  ⟨p0.x + (((k : R) / (s.e_density : R) * v_len) * u.x),
   p0.y + (((k : R) / (s.e_density : R) * v_len) * u.y),
   p0.z + (((k : R) / (s.e_density : R) * v_len) * u.z)⟩

/-- The value of `occlude_val` for edge `i` at step `k` (line 75). -/
def occlude_val (w : world R) (s : shape R) (i k : Nat) : Int :=
  w.occlude_point s (edge_point w.sqrt s i k) (s.edges i)

/-- The screen position `(movex, movey)` of the point of edge `i` at step `k`
(lines 80-82). -/
def edge_cell (w : world R) (s : shape R) (i k : Nat) : cell :=
  let p := edge_point w.sqrt s i k
  let m := movexy w.SCALE w.winx w.winy p.x p.y
  ⟨m.1, m.2⟩

/-- Lines 75-97: one pass through the body of the inner loop, after the point
has been computed. -/
def sample_step (w : world R) (s : shape R) (i : Nat) (st : edge_bufs) (k : Nat) :
    edge_bufs :=
  if s.occlusion = occ_method.CONVEX ∧ occlude_val w s i k ≠ 0 then st
  else if occlude_val w s i k = 1 then
    { st with
      behinds := Function.update st.behinds st.behinds_index (edge_cell w s i k)
      behinds_index := st.behinds_index + 1 }
  else
    { st with
      fronts := Function.update st.fronts st.fronts_index (edge_cell w s i k)
      fronts_index := st.fronts_index + 1 }

/-- Lines 66-99: the inner loop, `k = 0, 1, ..., e_density`. -/
def edge_samples (w : world R) (s : shape R) (i : Nat) (st : edge_bufs) : edge_bufs :=
  (List.range (s.e_density + 1)).foldl (sample_step w s i) st

/-- Lines 46-100: the outer loop run for `i = n - 1, n - 2, ..., 0`. -/
def edge_loop (w : world R) (s : shape R) : Nat → edge_bufs → edge_bufs
  | 0, st => st
  | n + 1, st => edge_loop w s n (edge_samples w s n st)

/-- Lines 42-100: the sampling loop of `print_edges`, from both write indices
at zero. -/
def sampling (w : world R) (s : shape R) : edge_bufs :=
  edge_loop w s s.num_e ⟨s.fronts, s.behinds, 0, 0⟩

/-- The loops of lines 105-109 and 113-117: `j = 0, 1, ...` while
`j < index - 1`, one `mvprintw` of the symbol per pass. -/
def draw_points (buf : Int → cell) (index : Int) (symbol : Char) : List draw :=
  (List.range (index - 1).toNat).map fun (j : Nat) =>
    ⟨(buf (j : Int)).y, (buf (j : Int)).x, [symbol]⟩

/-- Lines 102-118: the calls of `mvprintw` made after the sampling loop. -/
def edge_draws (s : shape R) (st : edge_bufs) : List draw :=
  (if s.occlusion ≠ occ_method.CONVEX then
      draw_points st.behinds st.behinds_index s.rear_symbol
    else []) ++
  draw_points st.fronts st.fronts_index s.front_symbol

/-- Lines 32-119. The result is the shape with its scratch buffers as the call
leaves them, and the calls of `mvprintw` in order. -/
def print_edges (w : world R) (s : shape R) : shape R × List draw :=
  let st := sampling w s
  ({ s with fronts := st.fronts, behinds := st.behinds }, edge_draws s st)

/-! ## `print_vertices` -/

/-- The output of `"%i"` for a loop index, which is never negative. -/
def label (i : Nat) : List Char :=
  Nat.toDigits 10 i

/-- Lines 141-153: one pass through the body of the loop of `print_vertices`.
The context handed to the occlusion test is the invalid edge `{-1, -1}`. -/
def vertex_step (w : world R) (s : shape R) (i : Nat) : List draw :=
  let p := s.vertices i
  if s.occlusion ≠ occ_method.NONE ∧ w.occlude_point s ⟨p.x, p.y, p.z⟩ ⟨-1, -1⟩ ≠ 0 then []
  else
    let m := movexy w.SCALE w.winx w.winy p.x p.y
    [⟨m.2, m.1, label i⟩]

/-- Lines 140-154: the loop run for `i = n - 1, n - 2, ..., 0`. -/
def vertex_loop (w : world R) (s : shape R) : Nat → List draw
  | 0 => []
  | n + 1 => vertex_step w s n ++ vertex_loop w s n

/-- Lines 127-155. -/
def print_vertices (w : world R) (s : shape R) : List draw :=
  vertex_loop w s s.num_v

/-! ## `print_shape` -/

/-- Lines 160-170. The result is the shape as the call leaves it and every
call of `mvprintw`, in order. -/
def print_shape (w : world R) (s : shape R) : shape R × List draw :=
  let r := if s.print_edges = true ∧ s.num_e ≠ 0 then print_edges w s else (s, [])
  (r.1, r.2 ++ (if s.print_vertices = true then print_vertices w s else []))

/-! ## The screen -/

/-- The contents of the character grid: what each `(row, col)` shows, if
anything has been written there. -/
abbrev screen := Int → Int → Option Char

/-- The characters of `text` written from `(row, col)` to the right. -/
def put_text (scr : screen) (row col : Int) : List Char → screen
  | [] => scr
  | c :: cs => put_text (fun r q => if r = row ∧ q = col then some c else scr r q) row (col + 1) cs

/-- The effect of one `mvprintw` on the grid. -/
def mvprintw (scr : screen) (d : draw) : screen :=
  put_text scr d.row d.col d.text

/-- The grid after a sequence of calls, the later call overwriting the
earlier one. -/
def render (ds : List draw) : screen :=
  ds.foldl mvprintw (fun _ _ => none)

/-! ## The samples in the order of the loops -/

/-- The pairs `(i, k)` in the order in which the two loops of `print_edges`
visit them when the outer loop starts below `n`: `i` descending, and `k`
ascending from `0` to `e_density` within each `i`. -/
def sample_order (s : shape R) : Nat → List (Nat × Nat)
  | 0 => []
  | n + 1 => (List.range (s.e_density + 1)).map (fun k => (n, k)) ++ sample_order s n

/-- The sample `(i, k)` is skipped by the `continue` of line 77. -/
def discarded (w : world R) (s : shape R) (p : Nat × Nat) : Bool :=
  decide (s.occlusion = occ_method.CONVEX ∧ occlude_val w s p.1 p.2 ≠ 0)

/-- The sample `(i, k)` reaches the branch of lines 90-92. -/
def to_behinds (w : world R) (s : shape R) (p : Nat × Nat) : Bool :=
  !discarded w s p && decide (occlude_val w s p.1 p.2 = 1)

/-- The sample `(i, k)` reaches the branch of lines 94-96. -/
def to_fronts (w : world R) (s : shape R) (p : Nat × Nat) : Bool :=
  !discarded w s p && !decide (occlude_val w s p.1 p.2 = 1)

/-- The screen positions of the samples of `l` that are written to `behinds`. -/
def behind_cells (w : world R) (s : shape R) (l : List (Nat × Nat)) : List cell :=
  (l.filter (to_behinds w s)).map fun p => edge_cell w s p.1 p.2

/-- The screen positions of the samples of `l` that are written to `fronts`. -/
def front_cells (w : world R) (s : shape R) (l : List (Nat × Nat)) : List cell :=
  (l.filter (to_fronts w s)).map fun p => edge_cell w s p.1 p.2

/-- The buffer `buf` after the cells of a list have been stored at `idx`,
`idx + 1`, and so on. -/
def write_cells (buf : Int → cell) (idx : Int) : List cell → (Int → cell)
  | [] => buf
  | c :: cs => write_cells (Function.update buf idx c) (idx + 1) cs

/-- The `mvprintw` of one symbol at a stored position. -/
def symbol_at (symbol : Char) (c : cell) : draw :=
  ⟨c.y, c.x, [symbol]⟩

/-! ## Vocabulary of the specification -/

/-- Every edge index pair references valid vertices. -/
def valid_edges (s : shape R) : Prop :=
  ∀ i, i < s.num_e →
    0 ≤ (s.edges i).edge0 ∧ (s.edges i).edge0 < s.num_v ∧
    0 ≤ (s.edges i).edge1 ∧ (s.edges i).edge1 < s.num_v

/-- The length of edge `i` in the words of the specification (4.2, step 1):
`len = |v|` for `v = vertex[edge[1]] - vertex[edge[0]]`. -/
def edge_len (sqrt : R → R) (s : shape R) (i : Nat) : R :=
  sqrt
    (((s.vertices (s.edges i).edge1).x - (s.vertices (s.edges i).edge0).x) *
        ((s.vertices (s.edges i).edge1).x - (s.vertices (s.edges i).edge0).x) +
      ((s.vertices (s.edges i).edge1).y - (s.vertices (s.edges i).edge0).y) *
        ((s.vertices (s.edges i).edge1).y - (s.vertices (s.edges i).edge0).y) +
      ((s.vertices (s.edges i).edge1).z - (s.vertices (s.edges i).edge0).z) *
        ((s.vertices (s.edges i).edge1).z - (s.vertices (s.edges i).edge0).z))

/-- The sample `k` of edge `i` in the words of the specification (4.2, step
2): `p_k = vertex[edge[0]] + (k / e_density) * len * u`, where `u = v / len`
is the unit direction from `vertex[edge[0]]` to `vertex[edge[1]]`. -/
def spec_sample (sqrt : R → R) (s : shape R) (i k : Nat) : point3 R :=
  ⟨(s.vertices (s.edges i).edge0).x +
      (k : R) / (s.e_density : R) * edge_len sqrt s i *
        (((s.vertices (s.edges i).edge1).x - (s.vertices (s.edges i).edge0).x) /
          edge_len sqrt s i),
   (s.vertices (s.edges i).edge0).y +
      (k : R) / (s.e_density : R) * edge_len sqrt s i *
        (((s.vertices (s.edges i).edge1).y - (s.vertices (s.edges i).edge0).y) /
          edge_len sqrt s i),
   (s.vertices (s.edges i).edge0).z +
      (k : R) / (s.e_density : R) * edge_len sqrt s i *
        (((s.vertices (s.edges i).edge1).z - (s.vertices (s.edges i).edge0).z) /
          edge_len sqrt s i)⟩

/-- The result of the occlusion test on the sample `p = (i, k)`, with edge `i`
as the context (4.2, step 3). -/
def spec_result (w : world R) (s : shape R) (p : Nat × Nat) : Int :=
  w.occlude_point s (spec_sample w.sqrt s p.1 p.2) (s.edges p.1)

/-- The `(x, y)` of the sample `p = (i, k)` mapped through `movexy` (4.2, step
5). -/
def spec_cell (w : world R) (s : shape R) (p : Nat × Nat) : cell :=
  ⟨(movexy w.SCALE w.winx w.winy (spec_sample w.sqrt s p.1 p.2).x
      (spec_sample w.sqrt s p.1 p.2).y).1,
   (movexy w.SCALE w.winx w.winy (spec_sample w.sqrt s p.1 p.2).x
      (spec_sample w.sqrt s p.1 p.2).y).2⟩

/-- The sample `p` is sent to `behinds`: it is not discarded (the mode is not
`CONVEX`, or the test result is zero) and its test result is 1. -/
def kept_in_behinds (w : world R) (s : shape R) (p : Nat × Nat) : Bool :=
  decide (¬ (s.occlusion = occ_method.CONVEX ∧ spec_result w s p ≠ 0) ∧ spec_result w s p = 1)

/-- The sample `p` is kept in `fronts`: it is neither discarded nor sent to
`behinds`. -/
def kept_in_fronts (w : world R) (s : shape R) (p : Nat × Nat) : Bool :=
  decide (¬ (s.occlusion = occ_method.CONVEX ∧ spec_result w s p ≠ 0) ∧ spec_result w s p ≠ 1)

/-- Rounding toward zero, in the words of the specification: the floor of the
magnitude, with the sign put back. -/
def floor_toward_zero (v : R) : Int :=
  if v < 0 then -⌊-v⌋ else ⌊v⌋

/-- Linear interpolation between two points at the fraction `t`. -/
def lerp (p0 p1 : point3 R) (t : R) : point3 R :=
  ⟨p0.x + t * (p1.x - p0.x), p0.y + t * (p1.y - p0.y), p0.z + t * (p1.z - p0.z)⟩

/-- Vertex `i` is not skipped by `print_vertices`: the mode is `NONE`, or the
occlusion test on the vertex with the edge `{-1, -1}` returns zero. -/
def vertex_drawn (w : world R) (s : shape R) (i : Nat) : Prop :=
  s.occlusion = occ_method.NONE ∨ w.occlude_point s (s.vertices i) ⟨-1, -1⟩ = 0

/-- The screen position `movexy` gives for vertex `i`. -/
def vertex_cell (w : world R) (s : shape R) (i : Nat) : cell :=
  ⟨(movexy w.SCALE w.winx w.winy (s.vertices i).x (s.vertices i).y).1,
   (movexy w.SCALE w.winx w.winy (s.vertices i).x (s.vertices i).y).2⟩

/-- The call `d` of `mvprintw` writes a character at `(row, col)`. -/
def covers (d : draw) (row col : Int) : Prop :=
  d.row = row ∧ d.col ≤ col ∧ col < d.col + d.text.length

/-- The number a string of decimal digits stands for. -/
def label_value (l : List Char) : Nat :=
  l.foldl (fun a c => 10 * a + (c.toNat - 48)) 0

instance vertex_drawn_decidable (w : world R) (s : shape R) (i : Nat) :
    Decidable (vertex_drawn w s i) :=
  inferInstanceAs (Decidable (_ ∨ _))

/-- The call of `mvprintw` that `print_vertices` makes for vertex `i` when it
does not skip it. -/
def label_draw (w : world R) (s : shape R) (i : Nat) : draw :=
  ⟨(vertex_cell w s i).y, (vertex_cell w s i).x, label i⟩

/-- The enumeration of the samples in the words of the specification: the
edges in descending index order and, within each edge, `k` ascending from `0`
to `e_density`. -/
def edge_k_order (s : shape R) : List (Nat × Nat) :=
  (List.range s.num_e).reverse.flatMap fun i =>
    (List.range (s.e_density + 1)).map fun k => (i, k)

/-- One pass of the inner loop of `print_edges`, for the pair `p = (i, k)`. -/
def pair_step (w : world R) (s : shape R) (st : edge_bufs) (p : Nat × Nat) : edge_bufs :=
  sample_step w s p.1 st p.2

/-- Two shapes agree on vertices, edges and configuration; their scratch
buffers may differ. -/
def same_but_scratch (s1 s2 : shape R) : Prop :=
  s1.num_v = s2.num_v ∧ s1.num_e = s2.num_e ∧ s1.vertices = s2.vertices ∧
  s1.edges = s2.edges ∧ s1.e_density = s2.e_density ∧ s1.occlusion = s2.occlusion ∧
  s1.print_edges = s2.print_edges ∧ s1.print_vertices = s2.print_vertices ∧
  s1.front_symbol = s2.front_symbol ∧ s1.rear_symbol = s2.rear_symbol

/-- The cell `m = (screen_x, screen_y)` lies on a screen of `winx` columns and
`winy` lines. -/
def on_screen (winx winy : Int) (m : Int × Int) : Prop :=
  0 ≤ m.1 ∧ m.1 < winx ∧ 0 ≤ m.2 ∧ m.2 < winy

/-! ## Concrete shapes -/

/-- Two vertices, `(0, 0, 0)` and `(0, 0, 1)`, one behind the other, and no
edge; the vertices are printed. -/
def post (R : Type) [LinearOrderedField R] (mode : occ_method) : shape R :=
  { num_v := 2
    num_e := 0
    vertices := fun i => if i = 0 then ⟨0, 0, 0⟩ else ⟨0, 0, 1⟩
    edges := fun _ => ⟨0, 1⟩
    e_density := 1
    occlusion := mode
    print_edges := true
    print_vertices := true
    front_symbol := 'o'
    rear_symbol := '.'
    fronts := fun _ => ⟨0, 0⟩
    behinds := fun _ => ⟨0, 0⟩ }

/-- A shape with the single edge from `(0, 0, 0)` to `(0, 0, 1)`, which points
away from the viewer: all its samples fall on one screen cell. -/
def rod (R : Type) [LinearOrderedField R] (mode : occ_method) (density : Nat) : shape R :=
  { num_v := 2
    num_e := 1
    vertices := fun i => if i = 0 then ⟨0, 0, 0⟩ else ⟨0, 0, 1⟩
    edges := fun _ => ⟨0, 1⟩
    e_density := density
    occlusion := mode
    print_edges := true
    print_vertices := false
    front_symbol := 'o'
    rear_symbol := '.'
    fronts := fun _ => ⟨0, 0⟩
    behinds := fun _ => ⟨0, 0⟩ }

/-- A shape with the single edge from `(0, 0, 0)` to `(4, 0, 0)`, sampled in
four segments. -/
def bar (R : Type) [LinearOrderedField R] : shape R :=
  { num_v := 2
    num_e := 1
    vertices := fun i => if i = 0 then ⟨0, 0, 0⟩ else ⟨4, 0, 0⟩
    edges := fun _ => ⟨0, 1⟩
    e_density := 4
    occlusion := occ_method.NONE
    print_edges := true
    print_vertices := true
    front_symbol := 'o'
    rear_symbol := '.'
    fronts := fun _ => ⟨0, 0⟩
    behinds := fun _ => ⟨0, 0⟩ }

/-- A window of 80 columns and 24 lines, `SCALE` 0.4, and an occlusion test
that reports as occluded (value 1) the points with `z < 1`. -/
def depth_world : world ℚ :=
  { SCALE := 0.4
    winx := 80
    winy := 24
    sqrt := Rat.sqrt
    occlude_point := fun _ p _ => if p.z < 1 then 1 else 0 }

/-- The same window, with an occlusion test whose non-zero value is 2. -/
def two_world : world ℚ :=
  { SCALE := 0.4
    winx := 80
    winy := 24
    sqrt := Rat.sqrt
    occlude_point := fun _ p _ => if p.z < 1 then 2 else 0 }

end Code

/-! ## The sampling loop as a list computation -/

section Sampling

variable {R : Type} [LinearOrderedField R] [FloorRing R]

theorem sample_step_eq (w : world R) (s : shape R) (i k : Nat) (st : edge_bufs) :
    sample_step w s i st k =
      ⟨write_cells st.fronts st.fronts_index (front_cells w s [(i, k)]),
       write_cells st.behinds st.behinds_index (behind_cells w s [(i, k)]),
       st.fronts_index + (front_cells w s [(i, k)]).length,
       st.behinds_index + (behind_cells w s [(i, k)]).length⟩ := by
  unfold sample_step front_cells behind_cells to_fronts to_behinds discarded
  by_cases hc : s.occlusion = occ_method.CONVEX
  · by_cases h0 : occlude_val w s i k = 0
    · simp [hc, h0, write_cells, List.filter]
    · by_cases h1 : occlude_val w s i k = 1
      · simp [hc, h1, write_cells, List.filter]
      · simp [hc, h0, h1, write_cells, List.filter]
  · by_cases h1 : occlude_val w s i k = 1
    · simp [hc, h1, write_cells, List.filter]
    · simp [hc, h1, write_cells, List.filter]

theorem write_cells_append (buf : Int → cell) (idx : Int) (l1 l2 : List cell) :
    write_cells buf idx (l1 ++ l2) =
      write_cells (write_cells buf idx l1) (idx + l1.length) l2 := by
  induction l1 generalizing buf idx with
  | nil => simp [write_cells]
  | cons c cs ih =>
    have h : idx + 1 + (cs.length : Int) = idx + ((cs.length + 1 : Nat) : Int) := by
      push_cast
      ring
    show write_cells (Function.update buf idx c) (idx + 1) (cs ++ l2) = _
    rw [ih, h]
    rfl

theorem foldl_sample_step (w : world R) (s : shape R) (i : Nat) (ks : List Nat)
    (st : edge_bufs) :
    ks.foldl (sample_step w s i) st =
      ⟨write_cells st.fronts st.fronts_index (front_cells w s (ks.map fun k => (i, k))),
       write_cells st.behinds st.behinds_index (behind_cells w s (ks.map fun k => (i, k))),
       st.fronts_index + (front_cells w s (ks.map fun k => (i, k))).length,
       st.behinds_index + (behind_cells w s (ks.map fun k => (i, k))).length⟩ := by
  induction ks generalizing st with
  | nil => simp [front_cells, behind_cells, write_cells]
  | cons k ks ih =>
    rw [List.foldl_cons, ih, sample_step_eq]
    have hf : front_cells w s (List.map (fun k => (i, k)) (k :: ks)) =
        front_cells w s [(i, k)] ++ front_cells w s (ks.map fun k => (i, k)) := by
      simp [front_cells, ← List.map_append, ← List.filter_append]
    have hb : behind_cells w s (List.map (fun k => (i, k)) (k :: ks)) =
        behind_cells w s [(i, k)] ++ behind_cells w s (ks.map fun k => (i, k)) := by
      simp [behind_cells, ← List.map_append, ← List.filter_append]
    rw [hf, hb, write_cells_append, write_cells_append]
    simp only [List.length_append, Nat.cast_add, add_assoc]

theorem edge_loop_eq (w : world R) (s : shape R) (n : Nat) (st : edge_bufs) :
    edge_loop w s n st =
      ⟨write_cells st.fronts st.fronts_index (front_cells w s (sample_order s n)),
       write_cells st.behinds st.behinds_index (behind_cells w s (sample_order s n)),
       st.fronts_index + (front_cells w s (sample_order s n)).length,
       st.behinds_index + (behind_cells w s (sample_order s n)).length⟩ := by
  induction n generalizing st with
  | zero => simp [edge_loop, sample_order, front_cells, behind_cells, write_cells]
  | succ n ih =>
    rw [edge_loop, ih, edge_samples, foldl_sample_step]
    have hf : front_cells w s (sample_order s (n + 1)) =
        front_cells w s ((List.range (s.e_density + 1)).map fun k => (n, k)) ++
          front_cells w s (sample_order s n) := by
      simp [front_cells, sample_order, ← List.map_append, ← List.filter_append]
    have hb : behind_cells w s (sample_order s (n + 1)) =
        behind_cells w s ((List.range (s.e_density + 1)).map fun k => (n, k)) ++
          behind_cells w s (sample_order s n) := by
      simp [behind_cells, sample_order, ← List.map_append, ← List.filter_append]
    rw [hf, hb, write_cells_append, write_cells_append]
    simp only [List.length_append, Nat.cast_add, add_assoc]

/-- The sampling loop of `print_edges`, read off the list of samples. -/
theorem sampling_eq (w : world R) (s : shape R) :
    sampling w s =
      ⟨write_cells s.fronts 0 (front_cells w s (sample_order s s.num_e)),
       write_cells s.behinds 0 (behind_cells w s (sample_order s s.num_e)),
       (front_cells w s (sample_order s s.num_e)).length,
       (behind_cells w s (sample_order s s.num_e)).length⟩ := by
  rw [sampling, edge_loop_eq]
  simp

theorem write_cells_below (buf : Int → cell) (idx : Int) (l : List cell) (j : Int)
    (h : j < idx) : write_cells buf idx l j = buf j := by
  induction l generalizing buf idx with
  | nil => rfl
  | cons c cs ih =>
    rw [write_cells, ih _ _ (by omega), Function.update_noteq (by omega)]

theorem write_cells_get (buf : Int → cell) (idx : Int) (l : List cell) (j : Nat)
    (h : j < l.length) : write_cells buf idx l (idx + j) = l.get ⟨j, h⟩ := by
  induction l generalizing buf idx j with
  | nil => simp at h
  | cons c cs ih =>
    cases j with
    | zero =>
      rw [write_cells, write_cells_below _ _ _ _ (by simp)]
      show Function.update buf idx c (idx + (0 : Int)) = c
      rw [add_zero, Function.update_same]
    | succ j =>
      have hj : j < cs.length := by simpa using h
      have e : idx + ((j + 1 : Nat) : Int) = idx + 1 + (j : Int) := by
        push_cast
        ring
      rw [write_cells, e, ih _ _ _ hj]
      rfl

/-- The draw loop over a buffer that was filled from index 0 with the cells of
`l` and is read with `index = l.length`: every cell but the last is drawn. -/
theorem draw_points_write_cells (buf : Int → cell) (l : List cell) (symbol : Char) :
    draw_points (write_cells buf 0 l) (l.length : Int) symbol =
      l.dropLast.map (symbol_at symbol) := by
  unfold draw_points
  apply List.ext_get
  · simp only [List.length_map, List.length_range, List.length_dropLast]
    omega
  · intro n h1 h2
    have hn : n < l.length - 1 := by simpa using h2
    have hl : n < l.length := by omega
    have e := write_cells_get buf 0 l n hl
    simp only [zero_add] at e
    simp [symbol_at, e, List.getElem_dropLast]

/-- The calls of `mvprintw` made by `print_edges`, read off the list of
samples. -/
theorem edge_draws_sampling (w : world R) (s : shape R) :
    edge_draws s (sampling w s) =
      (if s.occlusion ≠ occ_method.CONVEX then
          (behind_cells w s (sample_order s s.num_e)).dropLast.map (symbol_at s.rear_symbol)
        else []) ++
      (front_cells w s (sample_order s s.num_e)).dropLast.map (symbol_at s.front_symbol) := by
  rw [sampling_eq, edge_draws]
  simp only [draw_points_write_cells]

/-! ## Counting the samples -/

omit [LinearOrderedField R] [FloorRing R] in
theorem sample_order_length (s : shape R) (n : Nat) :
    (sample_order s n).length = n * (s.e_density + 1) := by
  induction n with
  | zero => simp [sample_order]
  | succ n ih =>
    simp only [sample_order, List.length_append, List.length_map, List.length_range, ih]
    ring

omit [LinearOrderedField R] [FloorRing R] in
theorem mem_sample_order (s : shape R) (n i k : Nat) :
    (i, k) ∈ sample_order s n ↔ i < n ∧ k ≤ s.e_density := by
  induction n with
  | zero => simp [sample_order]
  | succ n ih =>
    simp only [sample_order, List.mem_append, List.mem_map, List.mem_range, Prod.mk.injEq, ih]
    constructor
    · rintro (⟨a, ha, rfl, rfl⟩ | ⟨h1, h2⟩) <;> omega
    · rintro ⟨h1, h2⟩
      by_cases h : i = n
      · exact Or.inl ⟨k, by omega, h.symm, rfl⟩
      · exact Or.inr ⟨by omega, h2⟩

omit [LinearOrderedField R] [FloorRing R] in
theorem sample_order_nodup (s : shape R) (n : Nat) : (sample_order s n).Nodup := by
  induction n with
  | zero => simp [sample_order]
  | succ n ih =>
    rw [sample_order, List.nodup_append]
    refine ⟨?_, ih, ?_⟩
    · exact (List.nodup_range _).map (fun a b h => by simpa using h)
    · intro p hp hq
      obtain ⟨i, k⟩ := p
      simp only [List.mem_map, List.mem_range, Prod.mk.injEq] at hp
      obtain ⟨a, _, hn, _⟩ := hp
      have := (mem_sample_order s n i k).1 hq
      omega

/-- A sample that is not discarded goes to exactly one of the two buffers. -/
theorem kept_length (w : world R) (s : shape R) (l : List (Nat × Nat)) :
    (front_cells w s l).length + (behind_cells w s l).length =
      (l.filter fun p => !discarded w s p).length := by
  induction l with
  | nil => simp [front_cells, behind_cells]
  | cons p ps ih =>
    simp only [front_cells, behind_cells, List.length_map] at ih ⊢
    by_cases hd : discarded w s p = true
    · simp [List.filter_cons, to_fronts, to_behinds, hd, ih]
    · by_cases h1 : occlude_val w s p.1 p.2 = 1
      · simp [List.filter_cons, to_fronts, to_behinds, hd, h1, ← ih]
        omega
      · simp [List.filter_cons, to_fronts, to_behinds, hd, h1, ← ih]
        omega

/-- The two write indices never add up to more than the number of samples. -/
theorem sampling_total_le (w : world R) (s : shape R) :
    (sampling w s).fronts_index + (sampling w s).behinds_index ≤
      (s.num_e : Int) * ((s.e_density : Int) + 1) := by
  rw [sampling_eq]
  have h := kept_length w s (sample_order s s.num_e)
  have h2 := List.length_filter_le (fun p => !discarded w s p) (sample_order s s.num_e)
  rw [sample_order_length] at h2
  have h3 : (front_cells w s (sample_order s s.num_e)).length +
      (behind_cells w s (sample_order s s.num_e)).length ≤ s.num_e * (s.e_density + 1) := by
    omega
  show ((front_cells w s (sample_order s s.num_e)).length : Int) +
      ((behind_cells w s (sample_order s s.num_e)).length : Int) ≤ _
  exact_mod_cast h3

/-- Outside `CONVEX` mode no sample is discarded: the two write indices add up
to the number of samples. -/
theorem sampling_total_of_ne_convex (w : world R) (s : shape R)
    (h : s.occlusion ≠ occ_method.CONVEX) :
    (sampling w s).fronts_index + (sampling w s).behinds_index =
      (s.num_e : Int) * ((s.e_density : Int) + 1) := by
  rw [sampling_eq]
  have h1 := kept_length w s (sample_order s s.num_e)
  have h2 : (sample_order s s.num_e).filter (fun p => !discarded w s p) =
      sample_order s s.num_e := by
    apply List.filter_eq_self.2
    intro p _
    simp [discarded, h]
  rw [h2, sample_order_length] at h1
  show ((front_cells w s (sample_order s s.num_e)).length : Int) +
      ((behind_cells w s (sample_order s s.num_e)).length : Int) = _
  exact_mod_cast h1

/-- Outside `CONVEX` mode each edge adds `e_density + 1` to the sum of the two
write indices. -/
theorem edge_samples_total_of_ne_convex (w : world R) (s : shape R)
    (h : s.occlusion ≠ occ_method.CONVEX) (i : Nat) (st : edge_bufs) :
    (edge_samples w s i st).fronts_index + (edge_samples w s i st).behinds_index =
      st.fronts_index + st.behinds_index + ((s.e_density : Int) + 1) := by
  rw [edge_samples, foldl_sample_step]
  have h1 := kept_length w s ((List.range (s.e_density + 1)).map fun k => (i, k))
  have h2 : ((List.range (s.e_density + 1)).map fun k => (i, k)).filter
      (fun p => !discarded w s p) = (List.range (s.e_density + 1)).map fun k => (i, k) := by
    apply List.filter_eq_self.2
    intro p _
    simp [discarded, h]
  rw [h2, List.length_map, List.length_range] at h1
  simp only
  omega

theorem behind_cells_convex (w : world R) (s : shape R) (h : s.occlusion = occ_method.CONVEX)
    (l : List (Nat × Nat)) : behind_cells w s l = [] := by
  unfold behind_cells
  rw [List.map_eq_nil_iff, List.filter_eq_nil_iff]
  intro p _
  by_cases h1 : occlude_val w s p.1 p.2 = 1
  · simp [to_behinds, discarded, h, h1]
  · simp [to_behinds, h1]

theorem front_cells_convex (w : world R) (s : shape R) (h : s.occlusion = occ_method.CONVEX)
    (l : List (Nat × Nat)) :
    front_cells w s l =
      (l.filter fun p => decide (occlude_val w s p.1 p.2 = 0)).map
        fun p => edge_cell w s p.1 p.2 := by
  unfold front_cells
  congr 1
  apply List.filter_congr
  intro p _
  by_cases h0 : occlude_val w s p.1 p.2 = 0
  · simp [to_fronts, discarded, h, h0]
  · simp [to_fronts, discarded, h, h0]

omit [LinearOrderedField R] [FloorRing R] in
/-- Counting along the order of the loops is counting over all pairs
`(i, k)` with `i < n` and `k ≤ e_density`. -/
theorem sample_order_filter_length (s : shape R) (n : Nat) (q : Nat × Nat → Prop)
    [DecidablePred q] :
    ((sample_order s n).filter fun p => decide (q p)).length =
      ((Finset.range n ×ˢ Finset.range (s.e_density + 1)).filter q).card := by
  rw [← List.toFinset_card_of_nodup ((sample_order_nodup s n).filter _)]
  congr 1
  ext ⟨i, k⟩
  simp only [List.mem_toFinset, List.mem_filter, mem_sample_order, decide_eq_true_eq,
    Finset.mem_filter, Finset.mem_product, Finset.mem_range]
  constructor
  · rintro ⟨⟨h1, h2⟩, h3⟩
    exact ⟨⟨h1, by omega⟩, h3⟩
  · rintro ⟨⟨h1, h2⟩, h3⟩
    exact ⟨⟨h1, by omega⟩, h3⟩

omit [LinearOrderedField R] [FloorRing R] in
/-- The order of the loops is the order of the specification: edges
descending, `k` ascending within each edge. -/
theorem sample_order_eq_flatMap (s : shape R) (n : Nat) :
    sample_order s n =
      (List.range n).reverse.flatMap fun i =>
        (List.range (s.e_density + 1)).map fun k => (i, k) := by
  induction n with
  | zero => rfl
  | succ n ih =>
    have hr : (List.range (n + 1)).reverse = n :: (List.range n).reverse := by
      rw [List.range_succ, List.reverse_append, List.reverse_singleton, List.singleton_append]
    rw [sample_order, ih, hr, List.flatMap_cons]

omit [LinearOrderedField R] [FloorRing R] in
theorem sample_order_eq_edge_k_order (s : shape R) :
    sample_order s s.num_e = edge_k_order s :=
  sample_order_eq_flatMap s s.num_e

/-- Reading back the entries `0, 1, ..., l.length - 1` of a buffer filled from
index 0 with the cells of `l` gives `l`. -/
theorem read_write_cells (buf : Int → cell) (l : List cell) :
    (List.range l.length).map (fun (j : Nat) => write_cells buf 0 l (j : Int)) = l := by
  apply List.ext_get
  · simp
  · intro n h1 h2
    have e := write_cells_get buf 0 l n h2
    simp only [zero_add] at e
    simp [e]

/-- The passes of the inner loop over any list of samples, read off the
list. -/
theorem foldl_pair_step (w : world R) (s : shape R) (l : List (Nat × Nat))
    (st : edge_bufs) :
    l.foldl (pair_step w s) st =
      ⟨write_cells st.fronts st.fronts_index (front_cells w s l),
       write_cells st.behinds st.behinds_index (behind_cells w s l),
       st.fronts_index + (front_cells w s l).length,
       st.behinds_index + (behind_cells w s l).length⟩ := by
  induction l generalizing st with
  | nil => simp [front_cells, behind_cells, write_cells]
  | cons p ps ih =>
    rw [List.foldl_cons, ih, pair_step, sample_step_eq]
    have hf : front_cells w s (p :: ps) = front_cells w s [(p.1, p.2)] ++ front_cells w s ps := by
      simp [front_cells, ← List.map_append, ← List.filter_append]
    have hb : behind_cells w s (p :: ps) =
        behind_cells w s [(p.1, p.2)] ++ behind_cells w s ps := by
      simp [behind_cells, ← List.map_append, ← List.filter_append]
    rw [hf, hb, write_cells_append, write_cells_append]
    simp only [List.length_append, Nat.cast_add, add_assoc]

/-- The two nested loops are the passes of the inner loop over the samples in
the order of the loops. -/
theorem edge_loop_eq_foldl (w : world R) (s : shape R) (n : Nat) (st : edge_bufs) :
    edge_loop w s n st = (sample_order s n).foldl (pair_step w s) st := by
  rw [edge_loop_eq, foldl_pair_step]

/-- One pass changes at most the entry of `fronts` at `fronts_index` and the
entry of `behinds` at `behinds_index`. -/
theorem pair_step_writes (w : world R) (s : shape R) (st : edge_bufs) (p : Nat × Nat) :
    (∀ j, (pair_step w s st p).fronts j ≠ st.fronts j → j = st.fronts_index) ∧
    (∀ j, (pair_step w s st p).behinds j ≠ st.behinds j → j = st.behinds_index) := by
  unfold pair_step sample_step
  split_ifs
  · exact ⟨fun j h => absurd rfl h, fun j h => absurd rfl h⟩
  · refine ⟨fun j h => absurd rfl h, fun j h => ?_⟩
    by_contra hj
    exact h (Function.update_noteq hj _ _)
  · refine ⟨fun j h => ?_, fun j h => absurd rfl h⟩
    by_contra hj
    exact h (Function.update_noteq hj _ _)

/-! ## The loops against the words of the specification -/

omit [FloorRing R] in
theorem edge_point_eq_spec_sample (sqrt : R → R) (s : shape R) (i k : Nat) :
    edge_point sqrt s i k = spec_sample sqrt s i k :=
  rfl

omit [FloorRing R] in
theorem occlude_val_eq_spec_result (w : world R) (s : shape R) (p : Nat × Nat) :
    occlude_val w s p.1 p.2 = spec_result w s p :=
  rfl

theorem edge_cell_eq_spec_cell (w : world R) (s : shape R) (p : Nat × Nat) :
    edge_cell w s p.1 p.2 = spec_cell w s p :=
  rfl

omit [FloorRing R] in
/-- The walk along an edge starts at `vertex[edge[0]]` and, when the length of
the edge is not zero and `e_density ≥ 1`, ends at `vertex[edge[1]]`. -/
theorem spec_sample_ends (sqrt : R → R) (s : shape R) (i : Nat) :
    spec_sample sqrt s i 0 = s.vertices (s.edges i).edge0 ∧
    (1 ≤ s.e_density → edge_len sqrt s i ≠ 0 →
      spec_sample sqrt s i s.e_density = s.vertices (s.edges i).edge1) := by
  have hext : ∀ p q : point3 R, p.x = q.x → p.y = q.y → p.z = q.z → p = q := by
    intro p q hx hy hz
    cases p
    cases q
    simp only at hx hy hz
    rw [hx, hy, hz]
  constructor
  · apply hext <;> simp [spec_sample]
  · intro hd hl
    have he : (s.e_density : R) ≠ 0 := by
      have : 0 < s.e_density := hd
      exact_mod_cast this.ne'
    apply hext <;>
    · simp only [spec_sample]
      rw [div_self he, one_mul, mul_div_cancel₀ _ hl]
      ring

end Sampling

/-! ## The rod under the depth test -/

section Rod

theorem rod_point (mode : occ_method) (k : Nat) :
    edge_point Rat.sqrt (rod ℚ mode 2) 0 k = ⟨0, 0, (k : ℚ) / 2⟩ := by
  simp [edge_point, rod, vector3_sub, vector3_mag, vector3_unit]

theorem rod_cell (mode : occ_method) (k : Nat) :
    edge_cell depth_world (rod ℚ mode 2) 0 k = ⟨40, 12⟩ := by
  simp [edge_cell, depth_world, rod_point, movexy, int_cast]
  norm_num [Int.floor_eq_iff]

theorem rod_occlude_val (mode : occ_method) :
    occlude_val depth_world (rod ℚ mode 2) 0 0 = 1 ∧
    occlude_val depth_world (rod ℚ mode 2) 0 1 = 1 ∧
    occlude_val depth_world (rod ℚ mode 2) 0 2 = 0 := by
  refine ⟨?_, ?_, ?_⟩ <;> norm_num [occlude_val, depth_world, rod_point]

theorem rod_sample_order (mode : occ_method) :
    sample_order (rod ℚ mode 2) (rod ℚ mode 2).num_e = [(0, 0), (0, 1), (0, 2)] := by
  have h : (rod ℚ mode 2).e_density = 2 := rfl
  have h1 : (rod ℚ mode 2).num_e = 1 := rfl
  simp [sample_order, h, h1, List.range_succ]

theorem rod_behind_cells :
    behind_cells depth_world (rod ℚ occ_method.OTHER 2) [(0, 0), (0, 1), (0, 2)] =
      [⟨40, 12⟩, ⟨40, 12⟩] := by
  have h : (rod ℚ occ_method.OTHER 2).occlusion = occ_method.OTHER := rfl
  obtain ⟨h0, h1, h2⟩ := rod_occlude_val occ_method.OTHER
  simp [behind_cells, List.filter, to_behinds, discarded, h, h0, h1, h2, rod_cell]

theorem rod_front_cells :
    front_cells depth_world (rod ℚ occ_method.OTHER 2) [(0, 0), (0, 1), (0, 2)] =
      [⟨40, 12⟩] := by
  have h : (rod ℚ occ_method.OTHER 2).occlusion = occ_method.OTHER := rfl
  obtain ⟨h0, h1, h2⟩ := rod_occlude_val occ_method.OTHER
  simp [front_cells, List.filter, to_fronts, discarded, h, h0, h1, h2, rod_cell]

theorem rod_print_shape :
    (print_shape depth_world (rod ℚ occ_method.OTHER 2)).2 = [⟨12, 40, ['.']⟩] := by
  have h1 : (rod ℚ occ_method.OTHER 2).num_e = 1 := rfl
  have h2 : (rod ℚ occ_method.OTHER 2).occlusion = occ_method.OTHER := rfl
  have h3 : (rod ℚ occ_method.OTHER 2).print_edges = true := rfl
  have h4 : (rod ℚ occ_method.OTHER 2).print_vertices = false := rfl
  have h5 : (rod ℚ occ_method.OTHER 2).rear_symbol = '.' := rfl
  have h6 := rod_sample_order occ_method.OTHER
  rw [h1] at h6
  simp only [print_shape, print_edges, edge_draws_sampling, h1, h2, h3, h4, h5, h6,
    rod_behind_cells, rod_front_cells]
  simp [symbol_at]

theorem rod_valid_edges (mode : occ_method) (density : Nat) :
    valid_edges (rod ℚ mode density) := by
  intro i _
  simp [rod]

theorem rod_cell_two (mode : occ_method) (k : Nat) :
    edge_cell two_world (rod ℚ mode 2) 0 k = ⟨40, 12⟩ := by
  simp [edge_cell, two_world, rod_point, movexy, int_cast]
  norm_num [Int.floor_eq_iff]

theorem rod_occlude_val_two (mode : occ_method) :
    occlude_val two_world (rod ℚ mode 2) 0 0 = 2 := by
  norm_num [occlude_val, two_world, rod_point]

theorem rod_edge_k_order (mode : occ_method) :
    edge_k_order (rod ℚ mode 2) = [(0, 0), (0, 1), (0, 2)] := by
  rw [← sample_order_eq_edge_k_order]
  exact rod_sample_order mode

theorem rod_zero_results_convex :
    ([(0, 0), (0, 1), (0, 2)].filter fun p : Nat × Nat =>
        decide (depth_world.occlude_point (rod ℚ occ_method.CONVEX 2)
          (spec_sample depth_world.sqrt (rod ℚ occ_method.CONVEX 2) p.1 p.2)
          ((rod ℚ occ_method.CONVEX 2).edges p.1) = 0)) = [(0, 2)] := by
  obtain ⟨h0, h1, h2⟩ := rod_occlude_val occ_method.CONVEX
  have g0 : depth_world.occlude_point (rod ℚ occ_method.CONVEX 2)
      (spec_sample depth_world.sqrt (rod ℚ occ_method.CONVEX 2) 0 0)
      ((rod ℚ occ_method.CONVEX 2).edges 0) = 1 := h0
  have g1 : depth_world.occlude_point (rod ℚ occ_method.CONVEX 2)
      (spec_sample depth_world.sqrt (rod ℚ occ_method.CONVEX 2) 0 1)
      ((rod ℚ occ_method.CONVEX 2).edges 0) = 1 := h1
  have g2 : depth_world.occlude_point (rod ℚ occ_method.CONVEX 2)
      (spec_sample depth_world.sqrt (rod ℚ occ_method.CONVEX 2) 0 2)
      ((rod ℚ occ_method.CONVEX 2).edges 0) = 0 := h2
  simp only [List.filter, g0, g1, g2]
  decide

end Rod

/-! ## The bar under the depth test -/

section Bar

theorem bar_sample (k : Nat) :
    spec_sample Rat.sqrt (bar ℚ) 0 k = ⟨(k : ℚ), 0, 0⟩ := by
  have hs : Rat.sqrt 16 = 4 := by
    have h := Rat.sqrt_eq 4
    rw [show (4 : ℚ) * 4 = 16 by norm_num, show |(4 : ℚ)| = 4 by norm_num] at h
    exact h
  have hl : edge_len Rat.sqrt (bar ℚ) 0 = 4 := by
    simp only [edge_len, bar]
    norm_num [hs]
  simp only [spec_sample, hl]
  simp only [bar]
  norm_num

theorem bar_edge_k_order :
    edge_k_order (bar ℚ) = [(0, 0), (0, 1), (0, 2), (0, 3), (0, 4)] := by
  have h : (bar ℚ).e_density = 4 := rfl
  have h1 : (bar ℚ).num_e = 1 := rfl
  rw [← sample_order_eq_edge_k_order, h1]
  simp only [sample_order, h, List.range_succ, List.range_zero, List.nil_append,
    List.map_append, List.map_cons, List.map_nil, List.append_nil, List.cons_append]

theorem bar_spec_result (k : Nat) : spec_result depth_world (bar ℚ) (0, k) = 1 := by
  simp only [spec_result, depth_world, bar_sample]
  norm_num

theorem bar_spec_cell :
    spec_cell depth_world (bar ℚ) (0, 0) = ⟨40, 12⟩ ∧
    spec_cell depth_world (bar ℚ) (0, 1) = ⟨49, 12⟩ ∧
    spec_cell depth_world (bar ℚ) (0, 2) = ⟨59, 12⟩ ∧
    spec_cell depth_world (bar ℚ) (0, 3) = ⟨68, 12⟩ ∧
    spec_cell depth_world (bar ℚ) (0, 4) = ⟨78, 12⟩ := by
  refine ⟨?_, ?_, ?_, ?_, ?_⟩ <;>
  · simp only [spec_cell, depth_world, bar_sample, movexy, int_cast]
    norm_num [Int.floor_eq_iff]

theorem bar_valid_edges : valid_edges (bar ℚ) := by
  intro i _
  simp [bar]

end Bar

/-! ## Sample points and interpolation -/

section Interpolation

variable {R : Type} [LinearOrderedField R]

/-- When the magnitude of the edge vector is not zero, the point computed by
`print_edges` is the linear interpolation of the two endpoints. -/
theorem edge_point_eq_lerp_of_mag_ne_zero (sqrt : R → R) (s : shape R) (i k : Nat)
    (hm : vector3_mag sqrt
      (vector3_sub (s.vertices (s.edges i).edge1) (s.vertices (s.edges i).edge0)) ≠ 0) :
    edge_point sqrt s i k =
      lerp (s.vertices (s.edges i).edge0) (s.vertices (s.edges i).edge1)
        ((k : R) / (s.e_density : R)) := by
  simp only [edge_point, lerp, vector3_unit, point3.mk.injEq]
  refine ⟨?_, ?_, ?_⟩ <;>
  · rw [add_right_inj, mul_assoc, mul_div_cancel₀ _ hm]
    rfl

/-- Over the reals the edge vector between two distinct points has a
magnitude that is not zero. -/
theorem real_mag_ne_zero (a b : point3 ℝ) (h : a ≠ b) :
    vector3_mag Real.sqrt (vector3_sub b a) ≠ 0 := by
  intro h0
  apply h
  simp only [vector3_mag, vector3_sub, Real.sqrt_eq_zero'] at h0
  have hx : b.x - a.x = 0 := by
    nlinarith [sq_nonneg (b.x - a.x), sq_nonneg (b.y - a.y), sq_nonneg (b.z - a.z)]
  have hy : b.y - a.y = 0 := by
    nlinarith [sq_nonneg (b.x - a.x), sq_nonneg (b.y - a.y), sq_nonneg (b.z - a.z)]
  have hz : b.z - a.z = 0 := by
    nlinarith [sq_nonneg (b.x - a.x), sq_nonneg (b.y - a.y), sq_nonneg (b.z - a.z)]
  cases a
  cases b
  simp only [point3.mk.injEq]
  simp only at hx hy hz
  exact ⟨by linarith, by linarith, by linarith⟩

theorem bar_endpoints_ne :
    (bar ℝ).vertices ((bar ℝ).edges 0).edge0 ≠ (bar ℝ).vertices ((bar ℝ).edges 0).edge1 := by
  intro h
  have hx := congrArg point3.x h
  norm_num [bar] at hx

end Interpolation

section Mapping

variable {R : Type} [LinearOrderedField R] [FloorRing R]

/-- The C cast rounds toward zero. -/
theorem int_cast_eq_floor_toward_zero (v : R) : int_cast v = floor_toward_zero v := by
  unfold int_cast floor_toward_zero
  by_cases h : 0 ≤ v
  · rw [if_pos h, if_neg (not_lt.2 h)]
  · rw [if_neg h, if_pos (not_le.1 h), Int.floor_neg, neg_neg]

/-- Rounding toward zero: the result lies between zero and the argument, less
than one away from the argument. -/
theorem floor_toward_zero_spec (v : R) :
    |((floor_toward_zero v : Int) : R)| ≤ |v| ∧ |v - ((floor_toward_zero v : Int) : R)| < 1 := by
  unfold floor_toward_zero
  by_cases h : v < 0
  · rw [if_pos h]
    have h1 : (0 : R) ≤ -v := by linarith
    have h2 := Int.floor_le (-v)
    have h3 := Int.lt_floor_add_one (-v)
    have h4 : (0 : R) ≤ ((⌊-v⌋ : Int) : R) := by exact_mod_cast Int.floor_nonneg.2 h1
    push_cast
    rw [abs_neg, abs_of_nonneg h4, abs_of_neg h, abs_lt]
    exact ⟨h2, by linarith, by linarith⟩
  · rw [if_neg h]
    have h1 : (0 : R) ≤ v := not_lt.1 h
    have h2 := Int.floor_le v
    have h3 := Int.lt_floor_add_one v
    have h4 : (0 : R) ≤ ((⌊v⌋ : Int) : R) := by exact_mod_cast Int.floor_nonneg.2 h1
    rw [abs_of_nonneg h4, abs_of_nonneg h1, abs_lt]
    exact ⟨h2, by linarith, by linarith⟩

/-- For a value strictly between `-2 ^ 31 - 1` and `2 ^ 31`, the range in which
the C conversion is defined, the result fits an `int`. -/
theorem int_cast_fits_int (v : R) (h1 : -(2 : R) ^ 31 - 1 < v) (h2 : v < (2 : R) ^ 31) :
    -(2 : Int) ^ 31 ≤ int_cast v ∧ int_cast v < (2 : Int) ^ 31 := by
  unfold int_cast
  by_cases h : 0 ≤ v
  · rw [if_pos h]
    constructor
    · exact le_trans (by norm_num) (Int.floor_nonneg.2 h)
    · rw [Int.floor_lt]
      exact_mod_cast h2
  · rw [if_neg h]
    constructor
    · have : (-(2 : Int) ^ 31 - 1) < ⌈v⌉ := by
        rw [Int.lt_ceil]
        exact_mod_cast h1
      omega
    · have : ⌈v⌉ ≤ 0 := by
        rw [Int.ceil_le]
        exact_mod_cast (le_of_lt (not_le.1 h))
      omega

/-- On a negative argument that is not an integer the cast is not the floor
of mathematics: `(int) (-1/2)` is `0`, the floor is `-1`. -/
theorem int_cast_neg_half : int_cast (-(1 / 2) : ℚ) = 0 ∧ ⌊(-(1 / 2) : ℚ)⌋ = -1 := by
  constructor
  · rw [int_cast, if_neg (by norm_num)]
    norm_num [Int.ceil_eq_iff]
  · norm_num [Int.floor_eq_iff]

/-- Half of a non-negative integer, cast to an `int`, is its quotient by 2. -/
theorem int_cast_half (n : Int) (h : 0 ≤ n) : int_cast ((0.5 : R) * (n : R)) = n / 2 := by
  have hn : (0 : R) ≤ (n : R) := by exact_mod_cast h
  have hv : (0 : R) ≤ 0.5 * (n : R) := mul_nonneg (by norm_num) hn
  rw [int_cast, if_pos hv, Int.floor_eq_iff]
  have h1 : n = 2 * (n / 2) + n % 2 := (Int.ediv_add_emod n 2).symm
  have h2 : 0 ≤ n % 2 := Int.emod_nonneg n (by decide)
  have h3 : n % 2 < 2 := Int.emod_lt_of_pos n (by decide)
  have h4 : n % 2 ≤ 1 := by omega
  have c1 : (n : R) = 2 * ((n / 2 : Int) : R) + ((n % 2 : Int) : R) := by
    exact_mod_cast h1
  have c2 : (0 : R) ≤ ((n % 2 : Int) : R) := by exact_mod_cast h2
  have c4 : ((n % 2 : Int) : R) ≤ 1 := by exact_mod_cast h4
  constructor
  · norm_num
    linarith
  · norm_num
    linarith

/-- The cast of a non-negative value is its floor, so it is non-negative and
it stays below every integer above the value. -/
theorem int_cast_bounds (v : R) (z : Int) (h0 : 0 ≤ v) (hz : v < (z : R)) :
    0 ≤ int_cast v ∧ int_cast v < z := by
  rw [int_cast, if_pos h0]
  exact ⟨Int.floor_nonneg.2 h0, Int.floor_lt.2 hz⟩

omit [FloorRing R] in
/-- A coordinate between `-1` and `1` under a sum of squares at most `1`. -/
theorem abs_le_one_of_sq_add_sq (x y : R) (h : x ^ 2 + y ^ 2 ≤ 1) : -1 ≤ x ∧ x ≤ 1 := by
  constructor
  · nlinarith [sq_nonneg y, sq_nonneg (x + 1), sq_nonneg (x - 1)]
  · nlinarith [sq_nonneg y, sq_nonneg (x + 1), sq_nonneg (x - 1)]

omit [FloorRing R] in
/-- The horizontal value before the cast, for a window of width `X` and height
`W` with `2 * S * W < X`. -/
theorem movex_value_bounds (S x X W : R) (h0 : 0 < S) (hx1 : -1 ≤ x) (hx2 : x ≤ 1)
    (hW : 1 ≤ W) (hw : 2 * S * W < X) :
    0 ≤ x * S * W + 0.5 * X ∧ x * S * W + 0.5 * X < X := by
  have hp : 0 < S * W := mul_pos h0 (by linarith)
  have b1 : -(S * W) ≤ x * (S * W) := by nlinarith
  have b2 : x * (S * W) ≤ S * W := by nlinarith
  have half : (0.5 : R) = 1 / 2 := by norm_num
  rw [half]
  constructor
  · nlinarith
  · nlinarith

omit [FloorRing R] in
/-- The vertical value before the cast, for a window of height `W` and
`S < 1`. -/
theorem movey_value_bounds (S y W : R) (h0 : 0 < S) (h1 : S < 1) (hy1 : -1 ≤ y)
    (hy2 : y ≤ 1) (hW : 1 ≤ W) :
    0 ≤ -(y * S * 0.5 * W) + 0.5 * W ∧ -(y * S * 0.5 * W) + 0.5 * W < W := by
  have hp : 0 < S * W := mul_pos h0 (by linarith)
  have hq : S * W < W := by nlinarith
  have b1 : -(S * W) ≤ y * (S * W) := by nlinarith
  have b2 : y * (S * W) ≤ S * W := by nlinarith
  have half : (0.5 : R) = 1 / 2 := by norm_num
  rw [half]
  constructor
  · nlinarith
  · nlinarith

/-- With `SCALE` 0.4 and a window of 10 columns and 40 lines, the point
`(1, 0)` is sent to column 21. -/
theorem movexy_narrow_window : movexy (0.4 : ℚ) 10 40 1 0 = (21, 20) := by
  simp only [movexy, int_cast]
  norm_num [Int.floor_eq_iff]

end Mapping

/-! ## Decimal labels -/

section Labels

theorem digitChar_value (d : Nat) (h : d < 10) : (Nat.digitChar d).toNat - 48 = d := by
  interval_cases d <;> rfl

theorem toDigitsCore_append (f n : Nat) (ds : List Char) :
    Nat.toDigitsCore 10 f n ds = Nat.toDigitsCore 10 f n [] ++ ds := by
  induction f generalizing n ds with
  | zero => simp [Nat.toDigitsCore]
  | succ f ih =>
    simp only [Nat.toDigitsCore]
    split_ifs
    · simp
    · rw [ih (n / 10) (_ :: ds), ih (n / 10) [_]]
      simp

theorem label_value_toDigitsCore (f n : Nat) (h : n < f) :
    label_value (Nat.toDigitsCore 10 f n []) = n := by
  induction f generalizing n with
  | zero => omega
  | succ f ih =>
    simp only [Nat.toDigitsCore]
    split_ifs with h0
    · have hn : n < 10 := by omega
      simp only [label_value, List.foldl_cons, List.foldl_nil, Nat.mod_eq_of_lt hn]
      rw [digitChar_value n hn]
      omega
    · rw [toDigitsCore_append]
      have h1 := ih (n / 10) (by omega)
      simp only [label_value, List.foldl_append, List.foldl_cons, List.foldl_nil] at h1 ⊢
      rw [h1, digitChar_value _ (Nat.mod_lt _ (by decide))]
      omega

theorem label_value_label (n : Nat) : label_value (label n) = n :=
  label_value_toDigitsCore (n + 1) n (Nat.lt_succ_self n)

/-- Two indices with the same decimal label are equal. -/
theorem label_injective : Function.Injective label := by
  intro a b h
  rw [← label_value_label a, ← label_value_label b, h]

theorem toDigitsCore_ne_nil (f n : Nat) (ds : List Char) (h : 0 < f) :
    Nat.toDigitsCore 10 f n ds ≠ [] := by
  obtain ⟨f, rfl⟩ : ∃ g, f = g + 1 := ⟨f - 1, by omega⟩
  simp only [Nat.toDigitsCore]
  split_ifs
  · simp
  · rw [toDigitsCore_append]
    simp

theorem label_ne_nil (n : Nat) : label n ≠ [] :=
  toDigitsCore_ne_nil (n + 1) n [] (Nat.succ_pos n)

end Labels

/-! ## The screen under a sequence of calls -/

section Screen

theorem put_text_of_not_covered (scr : screen) (row col : Int) (text : List Char) (r c : Int)
    (h : ¬ (r = row ∧ col ≤ c ∧ c < col + text.length)) :
    put_text scr row col text r c = scr r c := by
  induction text generalizing scr col with
  | nil => rfl
  | cons ch cs ih =>
    rw [put_text, ih]
    · have hc : ¬ (r = row ∧ c = col) := by
        rintro ⟨h1, h2⟩
        apply h
        simp only [List.length_cons]
        push_cast
        omega
      simp only [if_neg hc]
    · rintro ⟨h1, h2, h3⟩
      apply h
      simp only [List.length_cons]
      push_cast
      omega

theorem put_text_head (scr : screen) (row col : Int) (ch : Char) (cs : List Char) :
    put_text scr row col (ch :: cs) row col = some ch := by
  rw [put_text, put_text_of_not_covered]
  · simp
  · rintro ⟨_, h2, _⟩
    omega

theorem mvprintw_of_not_covers (scr : screen) (d : draw) (r c : Int) (h : ¬ covers d r c) :
    mvprintw scr d r c = scr r c := by
  apply put_text_of_not_covered
  rintro ⟨h1, h2, h3⟩
  exact h ⟨h1.symm, h2, h3⟩

/-- Calls that do not cover a cell leave it as it was. -/
theorem foldl_mvprintw_of_not_covers (l : List draw) (scr : screen) (r c : Int)
    (h : ∀ d ∈ l, ¬ covers d r c) : l.foldl mvprintw scr r c = scr r c := by
  induction l generalizing scr with
  | nil => rfl
  | cons d ds ih =>
    rw [List.foldl_cons, ih _ (fun e he => h e (List.mem_cons_of_mem _ he)),
      mvprintw_of_not_covers _ _ _ _ (h d (List.mem_cons_self _ _))]

end Screen

/-! ## The loop of `print_vertices` -/

section Vertices

variable {R : Type} [LinearOrderedField R] [FloorRing R]

theorem vertex_step_of_drawn (w : world R) (s : shape R) (i : Nat)
    (h : vertex_drawn w s i) :
    vertex_step w s i = [⟨(vertex_cell w s i).y, (vertex_cell w s i).x, label i⟩] := by
  unfold vertex_step
  rw [if_neg]
  · rfl
  · rintro ⟨h1, h2⟩
    rcases h with h | h
    · exact h1 h
    · exact h2 h

theorem vertex_step_of_not_drawn (w : world R) (s : shape R) (i : Nat)
    (h : ¬ vertex_drawn w s i) : vertex_step w s i = [] := by
  unfold vertex_step
  rw [if_pos]
  constructor
  · intro h1
    exact h (Or.inl h1)
  · intro h2
    exact h (Or.inr h2)

theorem mem_vertex_loop (w : world R) (s : shape R) (n : Nat) (d : draw) :
    d ∈ vertex_loop w s n ↔
      ∃ i, i < n ∧ vertex_drawn w s i ∧
        d = ⟨(vertex_cell w s i).y, (vertex_cell w s i).x, label i⟩ := by
  induction n with
  | zero => simp [vertex_loop]
  | succ n ih =>
    rw [vertex_loop, List.mem_append, ih]
    constructor
    · rintro (h | ⟨i, hi, hd, he⟩)
      · by_cases hn : vertex_drawn w s n
        · rw [vertex_step_of_drawn w s n hn, List.mem_singleton] at h
          exact ⟨n, Nat.lt_succ_self n, hn, h⟩
        · rw [vertex_step_of_not_drawn w s n hn] at h
          simp at h
      · exact ⟨i, Nat.lt_succ_of_lt hi, hd, he⟩
    · rintro ⟨i, hi, hd, he⟩
      by_cases hn : i = n
      · subst hn
        left
        rw [vertex_step_of_drawn w s i hd, List.mem_singleton]
        exact he
      · exact Or.inr ⟨i, by omega, hd, he⟩

/-- The calls made for the indices below `i` are the last ones of the loop,
and the call for `i` comes right before them. -/
theorem vertex_loop_split (w : world R) (s : shape R) (i n : Nat) (h : i < n) :
    ∃ pre, vertex_loop w s n = pre ++ vertex_step w s i ++ vertex_loop w s i := by
  induction n with
  | zero => omega
  | succ n ih =>
    by_cases hn : i = n
    · subst hn
      exact ⟨[], by simp [vertex_loop]⟩
    · obtain ⟨pre, hp⟩ := ih (by omega)
      exact ⟨vertex_step w s n ++ pre, by simp [vertex_loop, hp]⟩

theorem vertex_loop_length_none (w : world R) (s : shape R)
    (h : s.occlusion = occ_method.NONE) (n : Nat) : (vertex_loop w s n).length = n := by
  induction n with
  | zero => rfl
  | succ n ih =>
    rw [vertex_loop, List.length_append, ih, vertex_step_of_drawn w s n (Or.inl h)]
    simp
    omega

theorem vertex_step_eq (w : world R) (s : shape R) (i : Nat) :
    vertex_step w s i = if vertex_drawn w s i then [label_draw w s i] else [] := by
  by_cases h : vertex_drawn w s i
  · rw [if_pos h, vertex_step_of_drawn w s i h]
    rfl
  · rw [if_neg h, vertex_step_of_not_drawn w s i h]

/-- The loop of `print_vertices` as a list: the indices below `n` in
descending order, the skipped ones left out, one call for each. -/
theorem vertex_loop_eq (w : world R) (s : shape R) (n : Nat) :
    vertex_loop w s n =
      ((List.range n).reverse.filter fun i => decide (vertex_drawn w s i)).map
        (label_draw w s) := by
  induction n with
  | zero => rfl
  | succ n ih =>
    rw [vertex_loop, ih, vertex_step_eq, List.range_succ, List.reverse_append,
      List.reverse_singleton, List.singleton_append, List.filter_cons]
    by_cases h : vertex_drawn w s n
    · simp [h]
    · simp [h]

theorem post_vertex_cell (mode : occ_method) (i : Nat) :
    vertex_cell depth_world (post ℚ mode) i = ⟨40, 12⟩ := by
  have h : ((post ℚ mode).vertices i).x = 0 ∧ ((post ℚ mode).vertices i).y = 0 := by
    by_cases hi : (i : Int) = 0 <;> simp [post, hi]
  simp only [vertex_cell, h.1, h.2, movexy, int_cast, depth_world]
  norm_num [Int.floor_eq_iff]

end Vertices

/-! ## Independence from the scratch buffers -/

section Scratch

variable {R : Type} [LinearOrderedField R] [FloorRing R]

omit [FloorRing R] in
theorem occlude_val_scratch (w : world R) (s : shape R) (f b : Int → cell)
    (hw : w.occlude_point { s with fronts := f, behinds := b } = w.occlude_point s) (i k : Nat) :
    occlude_val w { s with fronts := f, behinds := b } i k = occlude_val w s i k := by
  unfold occlude_val
  rw [hw]
  rfl

theorem front_cells_scratch (w : world R) (s : shape R) (f b : Int → cell)
    (hw : w.occlude_point { s with fronts := f, behinds := b } = w.occlude_point s) (l : List (Nat × Nat)) :
    front_cells w { s with fronts := f, behinds := b } l = front_cells w s l := by
  unfold front_cells
  have h : to_fronts w { s with fronts := f, behinds := b } = to_fronts w s := by
    funext p
    simp only [to_fronts, discarded, occlude_val_scratch w s f b hw]
  rw [h]
  rfl

theorem behind_cells_scratch (w : world R) (s : shape R) (f b : Int → cell)
    (hw : w.occlude_point { s with fronts := f, behinds := b } = w.occlude_point s) (l : List (Nat × Nat)) :
    behind_cells w { s with fronts := f, behinds := b } l = behind_cells w s l := by
  unfold behind_cells
  have h : to_behinds w { s with fronts := f, behinds := b } = to_behinds w s := by
    funext p
    simp only [to_behinds, discarded, occlude_val_scratch w s f b hw]
  rw [h]
  rfl

omit [LinearOrderedField R] [FloorRing R] in
theorem sample_order_scratch (s : shape R) (f b : Int → cell) (n : Nat) :
    sample_order { s with fronts := f, behinds := b } n = sample_order s n := by
  induction n with
  | zero => rfl
  | succ n ih => rw [sample_order, sample_order, ih]

theorem vertex_loop_scratch (w : world R) (s : shape R) (f b : Int → cell)
    (hw : w.occlude_point { s with fronts := f, behinds := b } = w.occlude_point s) (n : Nat) :
    vertex_loop w { s with fronts := f, behinds := b } n = vertex_loop w s n := by
  induction n with
  | zero => rfl
  | succ n ih =>
    rw [vertex_loop, vertex_loop, ih]
    congr 1
    unfold vertex_step
    rw [hw]

/-- The calls made by `print_shape` do not depend on what the scratch buffers
hold when it is called, when the occlusion test gives the same results
whatever they hold. -/
theorem print_shape_scratch (w : world R) (s : shape R) (f b : Int → cell)
    (hw : w.occlude_point { s with fronts := f, behinds := b } = w.occlude_point s) :
    (print_shape w { s with fronts := f, behinds := b }).2 = (print_shape w s).2 := by
  have he : (print_edges w { s with fronts := f, behinds := b }).2 = (print_edges w s).2 := by
    simp only [print_edges]
    rw [edge_draws_sampling, edge_draws_sampling, front_cells_scratch w s f b hw,
      behind_cells_scratch w s f b hw, sample_order_scratch]
  have hv : print_vertices w { s with fronts := f, behinds := b } = print_vertices w s :=
    vertex_loop_scratch w s f b hw s.num_v
  show (if s.print_edges = true ∧ s.num_e ≠ 0 then
        print_edges w { s with fronts := f, behinds := b }
      else ({ s with fronts := f, behinds := b }, [])).2 ++
      (if s.print_vertices = true then
        print_vertices w { s with fronts := f, behinds := b } else []) =
    (if s.print_edges = true ∧ s.num_e ≠ 0 then print_edges w s else (s, [])).2 ++
      (if s.print_vertices = true then print_vertices w s else [])
  rw [hv]
  by_cases h : s.print_edges = true ∧ s.num_e ≠ 0
  · rw [if_pos h, if_pos h, he]
  · rw [if_neg h, if_neg h]

omit [LinearOrderedField R] [FloorRing R] in
theorem eq_of_same_but_scratch (s1 s2 : shape R) (h : same_but_scratch s1 s2) :
    s2 = { s1 with fronts := s2.fronts, behinds := s2.behinds } := by
  obtain ⟨h1, h2, h3, h4, h5, h6, h7, h8, h9, h10⟩ := h
  cases s1
  cases s2
  simp only at h1 h2 h3 h4 h5 h6 h7 h8 h9 h10
  subst h1 h2 h3 h4 h5 h6 h7 h8 h9 h10
  rfl

end Scratch

/-! ## The claims -/

section Claims

variable {R : Type} [LinearOrderedField R] [FloorRing R]

/-- C1, evaluated on the code: on the rod under the depth test (edges printed,
one edge, density 2, a mode other than `CONVEX`) the sampling loop buffers two
points in `behinds` and one in `fronts`, and `print_shape` makes a single call
of `mvprintw`, for the first entry of `behinds`. The last entry of each buffer
is not drawn, so the number of draws is 1 and not 2 + 1. -/
theorem rod_draws_fewer_than_buffered :
    (rod ℚ occ_method.OTHER 2).print_edges = true ∧
    0 < (rod ℚ occ_method.OTHER 2).num_e ∧
    1 ≤ (rod ℚ occ_method.OTHER 2).e_density ∧
    (rod ℚ occ_method.OTHER 2).occlusion ≠ occ_method.CONVEX ∧
    (sampling depth_world (rod ℚ occ_method.OTHER 2)).behinds_index = 2 ∧
    (sampling depth_world (rod ℚ occ_method.OTHER 2)).fronts_index = 1 ∧
    (print_shape depth_world (rod ℚ occ_method.OTHER 2)).2 = [⟨12, 40, ['.']⟩] ∧
    ((print_shape depth_world (rod ℚ occ_method.OTHER 2)).2.length : Int) ≠
      (sampling depth_world (rod ℚ occ_method.OTHER 2)).behinds_index +
        (sampling depth_world (rod ℚ occ_method.OTHER 2)).fronts_index := by
  have hs := rod_sample_order occ_method.OTHER
  have hb : (sampling depth_world (rod ℚ occ_method.OTHER 2)).behinds_index = 2 := by
    rw [sampling_eq, hs, rod_behind_cells]
    rfl
  have hf : (sampling depth_world (rod ℚ occ_method.OTHER 2)).fronts_index = 1 := by
    rw [sampling_eq, hs, rod_front_cells]
    rfl
  refine ⟨rfl, by decide, by decide, by decide, hb, hf, rod_print_shape, ?_⟩
  rw [hb, hf, rod_print_shape]
  decide

/-- C2, evaluated on the code: on the rod under the depth test (edges
printed, vertices not, one edge, density 2, a mode that is neither `NONE` nor
`CONVEX`) the cell at row 12, column 40 receives a buffered front point
(`fronts[0]`, with `fronts_index = 1`) and buffered behind points
(`behinds[0]`, with `behinds_index = 2`), and after `print_shape` the cell
shows the rear symbol and not the front symbol: the only front point is the
last entry of `fronts`, which the draw loop leaves out. -/
theorem rod_overlap_shows_rear :
    (rod ℚ occ_method.OTHER 2).print_edges = true ∧
    (rod ℚ occ_method.OTHER 2).print_vertices = false ∧
    0 < (rod ℚ occ_method.OTHER 2).num_e ∧
    1 ≤ (rod ℚ occ_method.OTHER 2).e_density ∧
    (rod ℚ occ_method.OTHER 2).occlusion = occ_method.OTHER ∧
    (sampling depth_world (rod ℚ occ_method.OTHER 2)).fronts_index = 1 ∧
    (sampling depth_world (rod ℚ occ_method.OTHER 2)).fronts 0 = ⟨40, 12⟩ ∧
    (sampling depth_world (rod ℚ occ_method.OTHER 2)).behinds_index = 2 ∧
    (sampling depth_world (rod ℚ occ_method.OTHER 2)).behinds 0 = ⟨40, 12⟩ ∧
    render (print_shape depth_world (rod ℚ occ_method.OTHER 2)).2 12 40 =
      some (rod ℚ occ_method.OTHER 2).rear_symbol ∧
    render (print_shape depth_world (rod ℚ occ_method.OTHER 2)).2 12 40 ≠
      some (rod ℚ occ_method.OTHER 2).front_symbol := by
  have hs := rod_sample_order occ_method.OTHER
  have e := sampling_eq depth_world (rod ℚ occ_method.OTHER 2)
  rw [hs, rod_behind_cells, rod_front_cells] at e
  have hr : render (print_shape depth_world (rod ℚ occ_method.OTHER 2)).2 12 40 = some '.' := by
    rw [rod_print_shape]
    simp [render, mvprintw, put_text]
  refine ⟨rfl, rfl, by decide, by decide, rfl, ?_, ?_, ?_, ?_, hr, ?_⟩
  · rw [e]
    rfl
  · rw [e]
    simp [write_cells]
  · rw [e]
    rfl
  · rw [e]
    simp [write_cells]
  · rw [hr]
    decide

/-- C3: with `occlusion = NONE`, `e_density ≥ 1` and valid edge indices, for
every occlusion test the sampling loop of `print_edges` ends with
`fronts_index + behinds_index = num_e * (e_density + 1)`; each edge adds
exactly `e_density + 1` to that sum, so no sample is discarded. (The count
does not depend on the two side conditions; they are the conditions under
which the sampled points are defined.) -/
theorem sampling_none_total (w : world R) (s : shape R)
    (hn : s.occlusion = occ_method.NONE) (_hd : 1 ≤ s.e_density) (_hv : valid_edges s) :
    (sampling w s).fronts_index + (sampling w s).behinds_index =
      (s.num_e : Int) * ((s.e_density : Int) + 1) ∧
    ∀ (i : Nat) (st : edge_bufs),
      (edge_samples w s i st).fronts_index + (edge_samples w s i st).behinds_index =
        st.fronts_index + st.behinds_index + ((s.e_density : Int) + 1) := by
  have h : s.occlusion ≠ occ_method.CONVEX := by
    rw [hn]
    decide
  exact ⟨sampling_total_of_ne_convex w s h, edge_samples_total_of_ne_convex w s h⟩

theorem sampling_none_total_witness :
    (rod ℚ occ_method.NONE 2).occlusion = occ_method.NONE ∧
    1 ≤ (rod ℚ occ_method.NONE 2).e_density ∧
    valid_edges (rod ℚ occ_method.NONE 2) ∧
    (sampling depth_world (rod ℚ occ_method.NONE 2)).fronts_index +
      (sampling depth_world (rod ℚ occ_method.NONE 2)).behinds_index = 3 :=
  ⟨rfl, by decide, rod_valid_edges _ _,
    (sampling_none_total depth_world (rod ℚ occ_method.NONE 2) rfl (by decide)
      (rod_valid_edges _ _)).1⟩

/-- C4: with `occlusion = CONVEX`, for every occlusion test, the sampling loop
of `print_edges` writes no sample on which `occlude_point` (called on the
sample point, with the sampled edge as context) returns non-zero:
`behinds_index = 0` and the `behinds` buffer is untouched; `fronts_index` is
the number of pairs `(i, k)`, `i < num_e`, `k ≤ e_density`, on which the test
returns zero, and the entries of `fronts` below `fronts_index` are the cells
of exactly those samples, in the order of the loops; so
`fronts_index + behinds_index ≤ num_e * (e_density + 1)`, which is the sum the
same shape reaches with `occlusion = NONE`. -/
theorem sampling_convex (w : world R) (s : shape R)
    (hc : s.occlusion = occ_method.CONVEX) :
    (sampling w s).behinds_index = 0 ∧
    (sampling w s).behinds = s.behinds ∧
    (sampling w s).fronts_index =
      (((Finset.range s.num_e ×ˢ Finset.range (s.e_density + 1)).filter
        fun p => w.occlude_point s (spec_sample w.sqrt s p.1 p.2) (s.edges p.1) = 0).card :
          Int) ∧
    (List.range (sampling w s).fronts_index.toNat).map
        (fun (j : Nat) => (sampling w s).fronts (j : Int)) =
      ((edge_k_order s).filter fun p =>
          decide (w.occlude_point s (spec_sample w.sqrt s p.1 p.2) (s.edges p.1) = 0)).map
        (fun p =>
          (⟨(movexy w.SCALE w.winx w.winy (spec_sample w.sqrt s p.1 p.2).x
              (spec_sample w.sqrt s p.1 p.2).y).1,
            (movexy w.SCALE w.winx w.winy (spec_sample w.sqrt s p.1 p.2).x
              (spec_sample w.sqrt s p.1 p.2).y).2⟩ : cell)) ∧
    (sampling w s).fronts_index + (sampling w s).behinds_index ≤
      (s.num_e : Int) * ((s.e_density : Int) + 1) ∧
    (sampling w s).fronts_index + (sampling w s).behinds_index ≤
      (sampling w { s with occlusion := occ_method.NONE }).fronts_index +
        (sampling w { s with occlusion := occ_method.NONE }).behinds_index := by
  have hocc : ∀ p : Nat × Nat, occlude_val w s p.1 p.2 =
      w.occlude_point s (spec_sample w.sqrt s p.1 p.2) (s.edges p.1) := fun _ => rfl
  have hcell : ∀ p : Nat × Nat, edge_cell w s p.1 p.2 =
      (⟨(movexy w.SCALE w.winx w.winy (spec_sample w.sqrt s p.1 p.2).x
          (spec_sample w.sqrt s p.1 p.2).y).1,
        (movexy w.SCALE w.winx w.winy (spec_sample w.sqrt s p.1 p.2).x
          (spec_sample w.sqrt s p.1 p.2).y).2⟩ : cell) := fun _ => rfl
  have e := sampling_eq w s
  rw [behind_cells_convex w s hc, front_cells_convex w s hc] at e
  simp only [hocc, hcell] at e
  refine ⟨?_, ?_, ?_, ?_, sampling_total_le w s, ?_⟩
  · rw [e]
    rfl
  · rw [e]
    rfl
  · rw [e]
    simp only [List.length_map]
    rw [sample_order_filter_length s s.num_e
      (fun p => w.occlude_point s (spec_sample w.sqrt s p.1 p.2) (s.edges p.1) = 0)]
  · rw [e, ← sample_order_eq_edge_k_order]
    simp only [Int.toNat_ofNat]
    exact read_write_cells _ _
  · have hN : ({ s with occlusion := occ_method.NONE } : shape R).occlusion ≠
        occ_method.CONVEX := by
      simp
    rw [sampling_total_of_ne_convex w _ hN]
    exact sampling_total_le w s

/-- The rod under `CONVEX` and the depth test: of the three samples the two
with `z < 1` are occluded and discarded, the third is the only entry of
`fronts`. -/
theorem sampling_convex_witness :
    (rod ℚ occ_method.CONVEX 2).occlusion = occ_method.CONVEX ∧
    (sampling depth_world (rod ℚ occ_method.CONVEX 2)).behinds_index = 0 ∧
    (sampling depth_world (rod ℚ occ_method.CONVEX 2)).fronts_index = 1 ∧
    (sampling depth_world (rod ℚ occ_method.CONVEX 2)).fronts 0 = ⟨40, 12⟩ ∧
    depth_world.occlude_point (rod ℚ occ_method.CONVEX 2)
      (spec_sample depth_world.sqrt (rod ℚ occ_method.CONVEX 2) 0 0)
      ((rod ℚ occ_method.CONVEX 2).edges 0) = 1 ∧
    depth_world.occlude_point (rod ℚ occ_method.CONVEX 2)
      (spec_sample depth_world.sqrt (rod ℚ occ_method.CONVEX 2) 0 1)
      ((rod ℚ occ_method.CONVEX 2).edges 0) = 1 ∧
    depth_world.occlude_point (rod ℚ occ_method.CONVEX 2)
      (spec_sample depth_world.sqrt (rod ℚ occ_method.CONVEX 2) 0 2)
      ((rod ℚ occ_method.CONVEX 2).edges 0) = 0 := by
  obtain ⟨h0, h1, h2⟩ := rod_occlude_val occ_method.CONVEX
  obtain ⟨hb, _, _, hl, _, _⟩ := sampling_convex depth_world (rod ℚ occ_method.CONVEX 2) rfl
  rw [rod_edge_k_order, rod_zero_results_convex] at hl
  have hcell : (⟨(movexy depth_world.SCALE depth_world.winx depth_world.winy
        (spec_sample depth_world.sqrt (rod ℚ occ_method.CONVEX 2) 0 2).x
        (spec_sample depth_world.sqrt (rod ℚ occ_method.CONVEX 2) 0 2).y).1,
      (movexy depth_world.SCALE depth_world.winx depth_world.winy
        (spec_sample depth_world.sqrt (rod ℚ occ_method.CONVEX 2) 0 2).x
        (spec_sample depth_world.sqrt (rod ℚ occ_method.CONVEX 2) 0 2).y).2⟩ : cell) =
      ⟨40, 12⟩ := rod_cell occ_method.CONVEX 2
  simp only [List.map_cons, List.map_nil, hcell] at hl
  have hlen := congrArg List.length hl
  simp only [List.length_map, List.length_range, List.length_singleton] at hlen
  have hnn : 0 ≤ (sampling depth_world (rod ℚ occ_method.CONVEX 2)).fronts_index := by
    rw [sampling_eq]
    exact Int.ofNat_nonneg _
  have hfi : (sampling depth_world (rod ℚ occ_method.CONVEX 2)).fronts_index = 1 := by
    omega
  rw [hlen] at hl
  have hf0 : (sampling depth_world (rod ℚ occ_method.CONVEX 2)).fronts 0 = ⟨40, 12⟩ := by
    have h := congrArg (fun l : List cell => l.head?) hl
    simpa [List.range_succ] using h
  exact ⟨rfl, hb, hfi, hf0, h0, h1, h2⟩

/-- C5, evaluated on the code: on the rod with a mode other than `CONVEX`,
under an occlusion test whose value at the sample `k = 0` of edge 0 is 2 (not
zero, so the sample counts as occluded), the pass of the inner loop stores the
sample in `fronts` and leaves `behinds` alone, because line 89 compares the
value with 1. With `occlusion = CONVEX` the same sample is discarded. -/
theorem rod_occluded_sample_goes_to_fronts :
    (rod ℚ occ_method.OTHER 2).occlusion ≠ occ_method.CONVEX ∧
    occlude_val two_world (rod ℚ occ_method.OTHER 2) 0 0 = 2 ∧
    (sample_step two_world (rod ℚ occ_method.OTHER 2) 0
      ⟨fun _ => ⟨0, 0⟩, fun _ => ⟨0, 0⟩, 0, 0⟩ 0).fronts_index = 1 ∧
    (sample_step two_world (rod ℚ occ_method.OTHER 2) 0
      ⟨fun _ => ⟨0, 0⟩, fun _ => ⟨0, 0⟩, 0, 0⟩ 0).fronts 0 = ⟨40, 12⟩ ∧
    (sample_step two_world (rod ℚ occ_method.OTHER 2) 0
      ⟨fun _ => ⟨0, 0⟩, fun _ => ⟨0, 0⟩, 0, 0⟩ 0).behinds_index = 0 ∧
    (sample_step two_world (rod ℚ occ_method.OTHER 2) 0
      ⟨fun _ => ⟨0, 0⟩, fun _ => ⟨0, 0⟩, 0, 0⟩ 0).behinds 0 = ⟨0, 0⟩ ∧
    (sample_step two_world (rod ℚ occ_method.CONVEX 2) 0
      ⟨fun _ => ⟨0, 0⟩, fun _ => ⟨0, 0⟩, 0, 0⟩ 0).fronts_index = 0 := by
  have h2 := rod_occlude_val_two occ_method.OTHER
  have h3 := rod_occlude_val_two occ_method.CONVEX
  have hO : (rod ℚ occ_method.OTHER 2).occlusion = occ_method.OTHER := rfl
  have hC : (rod ℚ occ_method.CONVEX 2).occlusion = occ_method.CONVEX := rfl
  refine ⟨by decide, h2, ?_, ?_, ?_, ?_, ?_⟩
  · simp [sample_step, h2, hO]
  · simp [sample_step, h2, hO, rod_cell_two]
  · simp [sample_step, h2, hO]
  · simp [sample_step, h2, hO]
  · simp [sample_step, h3, hC]

/-- C6: over the reals, for an edge with distinct endpoints
`p0 = vertices[edge[0]]`, `p1 = vertices[edge[1]]`, `e_density ≥ 1` and
`0 ≤ k ≤ e_density`, the point computed by `print_edges`,
`p0 + ((k / e_density) * |p1 - p0|) * unit (p1 - p0)`, is the linear
interpolation `p0 + (k / e_density) * (p1 - p0)`. -/
theorem edge_point_eq_lerp (s : shape ℝ) (i k : Nat)
    (hne : s.vertices (s.edges i).edge0 ≠ s.vertices (s.edges i).edge1)
    (_hd : 1 ≤ s.e_density) (_hk : k ≤ s.e_density) :
    edge_point Real.sqrt s i k =
      lerp (s.vertices (s.edges i).edge0) (s.vertices (s.edges i).edge1)
        ((k : ℝ) / (s.e_density : ℝ)) :=
  edge_point_eq_lerp_of_mag_ne_zero Real.sqrt s i k (real_mag_ne_zero _ _ hne)

/-- The edge from `(0, 0, 0)` to `(4, 0, 0)` with `e_density = 4`: the five
points have `x = 0, 1, 2, 3, 4` and `y = z = 0`. -/
theorem edge_point_eq_lerp_witness :
    (bar ℝ).vertices ((bar ℝ).edges 0).edge0 ≠ (bar ℝ).vertices ((bar ℝ).edges 0).edge1 ∧
    1 ≤ (bar ℝ).e_density ∧
    edge_point Real.sqrt (bar ℝ) 0 0 = ⟨0, 0, 0⟩ ∧
    edge_point Real.sqrt (bar ℝ) 0 1 = ⟨1, 0, 0⟩ ∧
    edge_point Real.sqrt (bar ℝ) 0 2 = ⟨2, 0, 0⟩ ∧
    edge_point Real.sqrt (bar ℝ) 0 3 = ⟨3, 0, 0⟩ ∧
    edge_point Real.sqrt (bar ℝ) 0 4 = ⟨4, 0, 0⟩ := by
  have hd : 1 ≤ (bar ℝ).e_density := by decide
  refine ⟨bar_endpoints_ne, hd, ?_, ?_, ?_, ?_, ?_⟩
  · rw [edge_point_eq_lerp (bar ℝ) 0 0 bar_endpoints_ne hd (by decide)]
    norm_num [lerp, bar]
  · rw [edge_point_eq_lerp (bar ℝ) 0 1 bar_endpoints_ne hd (by decide)]
    norm_num [lerp, bar]
  · rw [edge_point_eq_lerp (bar ℝ) 0 2 bar_endpoints_ne hd (by decide)]
    norm_num [lerp, bar]
  · rw [edge_point_eq_lerp (bar ℝ) 0 3 bar_endpoints_ne hd (by decide)]
    norm_num [lerp, bar]
  · rw [edge_point_eq_lerp (bar ℝ) 0 4 bar_endpoints_ne hd (by decide)]
    norm_num [lerp, bar]

/-- C7: over the reals, for an edge with distinct endpoints and
`e_density ≥ 1`, the point computed by `print_edges` at `k = 0` is
`vertices[edge[0]]` and the point computed at `k = e_density` is
`vertices[edge[1]]`. -/
theorem edge_point_endpoints (s : shape ℝ) (i : Nat)
    (hne : s.vertices (s.edges i).edge0 ≠ s.vertices (s.edges i).edge1)
    (hd : 1 ≤ s.e_density) :
    edge_point Real.sqrt s i 0 = s.vertices (s.edges i).edge0 ∧
    edge_point Real.sqrt s i s.e_density = s.vertices (s.edges i).edge1 := by
  have hm := real_mag_ne_zero _ _ hne
  have he : (s.e_density : ℝ) ≠ 0 := by
    have : 0 < s.e_density := hd
    exact_mod_cast this.ne'
  constructor
  · rw [edge_point_eq_lerp_of_mag_ne_zero Real.sqrt s i 0 hm]
    simp [lerp]
  · rw [edge_point_eq_lerp_of_mag_ne_zero Real.sqrt s i s.e_density hm, div_self he]
    simp [lerp]

theorem edge_point_endpoints_witness :
    (bar ℝ).vertices ((bar ℝ).edges 0).edge0 ≠ (bar ℝ).vertices ((bar ℝ).edges 0).edge1 ∧
    1 ≤ (bar ℝ).e_density ∧
    edge_point Real.sqrt (bar ℝ) 0 0 = (bar ℝ).vertices 0 ∧
    edge_point Real.sqrt (bar ℝ) 0 4 = (bar ℝ).vertices 1 :=
  ⟨bar_endpoints_ne, by decide, edge_point_endpoints (bar ℝ) 0 bar_endpoints_ne (by decide)⟩

/-- C9: for every vertex index `i < num_v`, `print_vertices` makes a call
with the decimal label of `i` if and only if `occlusion = NONE` or the
occlusion test on vertex `i` with the edge `{-1, -1}` returns zero; such a
call is placed at the cell `movexy` gives for `(vertices[i].x,
vertices[i].y)`; and with `occlusion = NONE` exactly `num_v` calls are made,
whatever the occlusion test returns. -/
theorem print_vertices_draws_iff (w : world R) (s : shape R) (i : Nat) (hi : i < s.num_v) :
    ((∃ d ∈ print_vertices w s, d.text = label i) ↔ vertex_drawn w s i) ∧
    (∀ d ∈ print_vertices w s, d.text = label i →
      d.row = (vertex_cell w s i).y ∧ d.col = (vertex_cell w s i).x) ∧
    (s.occlusion = occ_method.NONE → (print_vertices w s).length = s.num_v) := by
  refine ⟨⟨?_, ?_⟩, ?_, ?_⟩
  · rintro ⟨d, hd, ht⟩
    obtain ⟨m, _, hm, rfl⟩ := (mem_vertex_loop w s s.num_v d).1 hd
    have e : m = i := label_injective ht
    rw [← e]
    exact hm
  · intro h
    exact ⟨_, (mem_vertex_loop w s s.num_v _).2 ⟨i, hi, h, rfl⟩, rfl⟩
  · intro d hd ht
    obtain ⟨m, _, _, rfl⟩ := (mem_vertex_loop w s s.num_v d).1 hd
    have e : m = i := label_injective ht
    rw [← e]
    exact ⟨rfl, rfl⟩
  · intro h
    exact vertex_loop_length_none w s h s.num_v

theorem print_vertices_draws_iff_witness :
    1 < (post ℚ occ_method.OTHER).num_v ∧
    ((∃ d ∈ print_vertices depth_world (post ℚ occ_method.OTHER), d.text = label 1) ↔
      vertex_drawn depth_world (post ℚ occ_method.OTHER) 1) :=
  ⟨by decide, (print_vertices_draws_iff depth_world (post ℚ occ_method.OTHER) 1 (by decide)).1⟩

/-- C10: with `print_vertices` set, for two vertices `i < j` that are both
drawn and map to the same screen cell, if no drawn vertex with an index below
`i` has a label covering that cell, then after `print_shape` the cell shows
the first character of the decimal label of `i` (the grid being the result of
the calls of `mvprintw` in order, the later call overwriting the earlier). -/
theorem lower_vertex_label_wins (w : world R) (s : shape R) (i j : Nat)
    (hp : s.print_vertices = true) (hij : i < j) (hj : j < s.num_v)
    (hdi : vertex_drawn w s i) (_hdj : vertex_drawn w s j)
    (_hc : vertex_cell w s i = vertex_cell w s j)
    (hlow : ∀ m, m < i → vertex_drawn w s m →
      ¬ covers ⟨(vertex_cell w s m).y, (vertex_cell w s m).x, label m⟩
        (vertex_cell w s i).y (vertex_cell w s i).x) :
    label i ≠ [] ∧
    render (print_shape w s).2 (vertex_cell w s i).y (vertex_cell w s i).x =
      (label i).head? := by
  refine ⟨label_ne_nil i, ?_⟩
  obtain ⟨pre, hpre⟩ := vertex_loop_split w s i s.num_v (by omega)
  obtain ⟨ch, cs, hl⟩ : ∃ ch cs, label i = ch :: cs := by
    cases h : label i with
    | nil => exact absurd h (label_ne_nil i)
    | cons ch cs => exact ⟨ch, cs, rfl⟩
  have hrest : ∀ d ∈ vertex_loop w s i,
      ¬ covers d (vertex_cell w s i).y (vertex_cell w s i).x := by
    intro d hd
    obtain ⟨m, hm, hdm, rfl⟩ := (mem_vertex_loop w s i d).1 hd
    exact hlow m hm hdm
  simp only [print_shape, render, hp, if_true, print_vertices, hpre,
    vertex_step_of_drawn w s i hdi, List.foldl_append, List.foldl_cons, List.foldl_nil]
  rw [foldl_mvprintw_of_not_covers _ _ _ _ hrest, hl, mvprintw]
  exact put_text_head _ _ _ ch cs

theorem lower_vertex_label_wins_witness :
    (post ℚ occ_method.NONE).print_vertices = true ∧
    0 < 1 ∧ 1 < (post ℚ occ_method.NONE).num_v ∧
    vertex_drawn depth_world (post ℚ occ_method.NONE) 0 ∧
    vertex_drawn depth_world (post ℚ occ_method.NONE) 1 ∧
    vertex_cell depth_world (post ℚ occ_method.NONE) 0 =
      vertex_cell depth_world (post ℚ occ_method.NONE) 1 ∧
    render (print_shape depth_world (post ℚ occ_method.NONE)).2 12 40 = some '0' := by
  have hc0 := post_vertex_cell occ_method.NONE 0
  have hc1 := post_vertex_cell occ_method.NONE 1
  have h := (lower_vertex_label_wins depth_world (post ℚ occ_method.NONE) 0 1 rfl
    (by decide) (by decide) (Or.inl rfl) (Or.inl rfl) (hc0.trans hc1.symm)
    (fun m hm => absurd hm (Nat.not_lt_zero m))).2
  rw [hc0] at h
  exact ⟨rfl, by decide, by decide, Or.inl rfl, Or.inl rfl, hc0.trans hc1.symm, h⟩

/-- C11: the sequence of vertex indices whose labels `print_vertices` draws
(each index read back from the decimal label of its call) is the list
`num_v - 1, num_v - 2, ..., 0` with the skipped vertices removed, and is
strictly descending; the calls themselves are one call per index of that
list, in that order. -/
theorem print_vertices_descending (w : world R) (s : shape R) :
    (print_vertices w s).map (fun d => label_value d.text) =
      ((List.range s.num_v).reverse.filter fun i => decide (vertex_drawn w s i)) ∧
    print_vertices w s =
      ((List.range s.num_v).reverse.filter fun i => decide (vertex_drawn w s i)).map
        (label_draw w s) ∧
    List.Pairwise (fun a b => b < a)
      ((print_vertices w s).map (fun d => label_value d.text)) := by
  have e := vertex_loop_eq w s s.num_v
  have hm : (print_vertices w s).map (fun d => label_value d.text) =
      ((List.range s.num_v).reverse.filter fun i => decide (vertex_drawn w s i)) := by
    rw [print_vertices, e, List.map_map]
    conv_rhs => rw [← List.map_id (List.filter _ _)]
    apply List.map_congr_left
    intro i _
    exact label_value_label i
  refine ⟨hm, e, ?_⟩
  rw [hm]
  apply List.Pairwise.filter
  rw [List.pairwise_reverse]
  exact List.pairwise_lt_range s.num_v

/-- C12: the calls of `mvprintw` made by `print_shape` come in three phases:
first the rear-symbol draws of behind points, then the front-symbol draws of
front points, then the vertex labels. The first two phases are empty unless
`print_edges` is set and `num_e` is not zero, the third unless
`print_vertices` is set, and the first is empty when `occlusion = CONVEX`. -/
theorem print_shape_phases (w : world R) (s : shape R) :
    ∃ rears fronts labels : List draw,
      (print_shape w s).2 = rears ++ fronts ++ labels ∧
      rears =
        (if s.print_edges = true ∧ s.num_e ≠ 0 ∧ s.occlusion ≠ occ_method.CONVEX then
          (behind_cells w s (sample_order s s.num_e)).dropLast.map (symbol_at s.rear_symbol)
        else []) ∧
      fronts =
        (if s.print_edges = true ∧ s.num_e ≠ 0 then
          (front_cells w s (sample_order s s.num_e)).dropLast.map (symbol_at s.front_symbol)
        else []) ∧
      labels = (if s.print_vertices = true then print_vertices w s else []) ∧
      (s.occlusion = occ_method.CONVEX → rears = []) := by
  refine ⟨_, _, _, ?_, rfl, rfl, rfl, ?_⟩
  · by_cases he : s.print_edges = true ∧ s.num_e ≠ 0
    · by_cases hc : s.occlusion = occ_method.CONVEX
      · simp [print_shape, print_edges, edge_draws_sampling, he, hc]
      · simp [print_shape, print_edges, edge_draws_sampling, he, hc]
    · have he2 : ¬ (s.print_edges = true ∧ s.num_e ≠ 0 ∧ s.occlusion ≠ occ_method.CONVEX) :=
        fun h => he ⟨h.1, h.2.1⟩
      simp only [print_shape, if_neg he, if_neg he2, List.nil_append]
  · intro hc
    rw [if_neg]
    rintro ⟨_, _, h⟩
    exact h hc

/-- C13: when `num_e = 0`, whatever `print_edges` and `e_density` are,
`print_shape` does not run `print_edges`: the shape, and so its two scratch
buffers, is returned as it came, and the calls of `mvprintw` are those of
`print_vertices` when `print_vertices` is set and none otherwise; every call
made is the label of a vertex, none is a rear or front symbol of an edge. -/
theorem print_shape_without_edges (w : world R) (s : shape R) (h : s.num_e = 0) :
    (print_shape w s).1 = s ∧
    (print_shape w s).1.fronts = s.fronts ∧
    (print_shape w s).1.behinds = s.behinds ∧
    (print_shape w s).2 = (if s.print_vertices = true then print_vertices w s else []) ∧
    (∀ d ∈ (print_shape w s).2, ∃ i, i < s.num_v ∧ d = label_draw w s i) := by
  have hn : ¬ (s.print_edges = true ∧ s.num_e ≠ 0) := fun hh => hh.2 h
  have h1 : (print_shape w s).1 = s := by
    simp only [print_shape, if_neg hn]
  have h2 : (print_shape w s).2 =
      (if s.print_vertices = true then print_vertices w s else []) := by
    simp only [print_shape, if_neg hn, List.nil_append]
  refine ⟨h1, by rw [h1], by rw [h1], h2, ?_⟩
  intro d hd
  rw [h2] at hd
  by_cases hp : s.print_vertices = true
  · rw [if_pos hp] at hd
    obtain ⟨i, hi, _, rfl⟩ := (mem_vertex_loop w s s.num_v d).1 hd
    exact ⟨i, hi, rfl⟩
  · rw [if_neg hp] at hd
    simp at hd

theorem print_shape_without_edges_witness :
    (post ℚ occ_method.NONE).num_e = 0 ∧
    (post ℚ occ_method.NONE).print_edges = true ∧
    (print_shape depth_world (post ℚ occ_method.NONE)).1.fronts =
      (post ℚ occ_method.NONE).fronts ∧
    (print_shape depth_world (post ℚ occ_method.NONE)).2 =
      print_vertices depth_world (post ℚ occ_method.NONE) :=
  ⟨rfl, rfl, (print_shape_without_edges depth_world (post ℚ occ_method.NONE) rfl).2.1,
    (print_shape_without_edges depth_world (post ℚ occ_method.NONE) rfl).2.2.2.1⟩

/-- C19: the draw loops of `print_edges` make exactly
`max (fronts_index - 1, 0)` front-symbol calls, for `fronts[0]` up to
`fronts[fronts_index - 2]` in buffer order, preceded, when
`occlusion ≠ CONVEX`, by exactly `max (behinds_index - 1, 0)` rear-symbol calls
for `behinds[0]` up to `behinds[behinds_index - 2]`; in terms of the samples,
the calls are those of the cells written to each buffer with the cell written
last left out. -/
theorem print_edges_skips_last (w : world R) (s : shape R) :
    (print_edges w s).2 =
      (if s.occlusion ≠ occ_method.CONVEX then
        (List.range (max ((sampling w s).behinds_index - 1) 0).toNat).map
          (fun (j : Nat) => symbol_at s.rear_symbol ((sampling w s).behinds (j : Int)))
      else []) ++
      (List.range (max ((sampling w s).fronts_index - 1) 0).toNat).map
        (fun (j : Nat) => symbol_at s.front_symbol ((sampling w s).fronts (j : Int))) ∧
    (((draw_points (sampling w s).fronts (sampling w s).fronts_index
        s.front_symbol).length : Int) = max ((sampling w s).fronts_index - 1) 0) ∧
    (((draw_points (sampling w s).behinds (sampling w s).behinds_index
        s.rear_symbol).length : Int) = max ((sampling w s).behinds_index - 1) 0) ∧
    (print_edges w s).2 =
      (if s.occlusion ≠ occ_method.CONVEX then
        (behind_cells w s (sample_order s s.num_e)).dropLast.map (symbol_at s.rear_symbol)
      else []) ++
      (front_cells w s (sample_order s s.num_e)).dropLast.map (symbol_at s.front_symbol) := by
  have hmax : ∀ z : Int, (max (z - 1) 0).toNat = (z - 1).toNat := by
    intro z
    omega
  have hlen : ∀ (buf : Int → cell) (z : Int) (c : Char),
      ((draw_points buf z c).length : Int) = max (z - 1) 0 := by
    intro buf z c
    simp only [draw_points, List.length_map, List.length_range]
    omega
  refine ⟨?_, hlen _ _ _, hlen _ _ _, ?_⟩
  · simp only [print_edges, edge_draws, draw_points, hmax, symbol_at]
  · simp only [print_edges]
    exact edge_draws_sampling w s

/-- C14, as stated, fails: with `SCALE` 0.4 the point `(1, 0)`, which has
`x ^ 2 + y ^ 2 ≤ 1`, is sent to column 21 of a window of 10 columns and 40
lines; and whatever positive value `SCALE` has, some window of one column is
too narrow for the point `(1, 0)`. -/
theorem movexy_leaves_narrow_window :
    ((1 : ℚ) ^ 2 + (0 : ℚ) ^ 2 ≤ 1 ∧ (1 : Int) ≤ 10 ∧ (1 : Int) ≤ 40 ∧
      ¬ on_screen 10 40 (movexy (0.4 : ℚ) 10 40 1 0)) ∧
    ¬ ∃ SCALE : ℝ, 0 < SCALE ∧
      ∀ (x y : ℝ) (winx winy : Int), x ^ 2 + y ^ 2 ≤ 1 → 1 ≤ winx → 1 ≤ winy →
        on_screen winx winy (movexy SCALE winx winy x y) := by
  constructor
  · refine ⟨by norm_num, by decide, by decide, ?_⟩
    rw [movexy_narrow_window]
    rintro ⟨_, h, _⟩
    exact absurd h (by decide)
  · rintro ⟨S, hS, h⟩
    obtain ⟨n, hn⟩ := exists_nat_ge (1 / S)
    have hon := h 1 0 1 ((n : Int) + 1) (by norm_num) le_rfl (by omega)
    have hlt : (movexy S 1 ((n : Int) + 1) 1 0).1 < 1 := hon.2.1
    have hSn : 1 ≤ (n : ℝ) * S := (div_le_iff₀ hS).1 hn
    have hv : (1 : ℝ) ≤ 1 * S * (((n : Int) + 1 : Int) : ℝ) + 0.5 * ((1 : Int) : ℝ) := by
      push_cast
      norm_num
      nlinarith
    have hv0 : (0 : ℝ) ≤ 1 * S * (((n : Int) + 1 : Int) : ℝ) + 0.5 * ((1 : Int) : ℝ) := by
      linarith
    have hge : 1 ≤ (movexy S 1 ((n : Int) + 1) 1 0).1 := by
      simp only [movexy]
      rw [int_cast, if_pos hv0]
      exact Int.le_floor.2 (by exact_mod_cast hv)
    omega

/-- C14, amended: with `0 < SCALE < 1`, for every point with
`x ^ 2 + y ^ 2 ≤ 1` and every window with `window_height ≥ 1` and
`window_width > 2 * SCALE * window_height`, the cell returned by `movexy` lies
on the screen. -/
theorem movexy_on_screen (SCALE x y : R) (winx winy : Int) (h0 : 0 < SCALE) (h1 : SCALE < 1)
    (hxy : x ^ 2 + y ^ 2 ≤ 1) (hh : 1 ≤ winy)
    (hw : 2 * SCALE * (winy : R) < (winx : R)) :
    on_screen winx winy (movexy SCALE winx winy x y) := by
  obtain ⟨hx1, hx2⟩ := abs_le_one_of_sq_add_sq x y hxy
  obtain ⟨hy1, hy2⟩ := abs_le_one_of_sq_add_sq y x (by linarith)
  have hW : (1 : R) ≤ (winy : R) := by exact_mod_cast hh
  obtain ⟨vx0, vx1⟩ := movex_value_bounds SCALE x (winx : R) (winy : R) h0 hx1 hx2 hW hw
  obtain ⟨vy0, vy1⟩ := movey_value_bounds SCALE y (winy : R) h0 h1 hy1 hy2 hW
  have cx := int_cast_bounds _ winx vx0 vx1
  have cy := int_cast_bounds _ winy vy0 vy1
  unfold on_screen movexy
  exact ⟨cx.1, cx.2, cy.1, cy.2⟩

theorem movexy_on_screen_witness :
    (0 : ℚ) < 0.4 ∧ (0.4 : ℚ) < 1 ∧ (1 : ℚ) ^ 2 + (0 : ℚ) ^ 2 ≤ 1 ∧ (1 : Int) ≤ 24 ∧
    2 * (0.4 : ℚ) * ((24 : Int) : ℚ) < ((80 : Int) : ℚ) ∧
    on_screen 80 24 (movexy (0.4 : ℚ) 80 24 1 0) :=
  ⟨by norm_num, by norm_num, by norm_num, by decide, by norm_num,
    movexy_on_screen (0.4 : ℚ) 1 0 80 24 (by norm_num) (by norm_num) (by norm_num)
      (by decide) (by norm_num)⟩

/-- C15: for every window extent with non-negative dimensions and every value
of `SCALE`, `movexy` sends the origin to the cell
`(window_width / 2, window_height / 2)`, the division being the truncating
division of integers. -/
theorem movexy_origin (SCALE : R) (winx winy : Int) (hx : 0 ≤ winx) (hy : 0 ≤ winy) :
    movexy SCALE winx winy 0 0 = (Int.tdiv winx 2, Int.tdiv winy 2) := by
  rw [Int.tdiv_eq_ediv hx (by decide), Int.tdiv_eq_ediv hy (by decide)]
  simp only [movexy, zero_mul, neg_zero, zero_add]
  rw [int_cast_half winx hx, int_cast_half winy hy]

theorem movexy_origin_witness :
    (0 : Int) ≤ 81 ∧ (0 : Int) ≤ 25 ∧ movexy (0.4 : ℚ) 81 25 0 0 = (40, 12) :=
  ⟨by decide, by decide, movexy_origin (0.4 : ℚ) 81 25 (by decide) (by decide)⟩

/-- C16: after the sampling loop of `print_edges` (valid edge indices,
`e_density ≥ 1`), the first `fronts_index` entries of `fronts` are the list
obtained by enumerating the edges in descending index order and, within each
edge, `k` ascending from `0` to `e_density`, keeping the samples that are
neither discarded nor sent to `behinds`, and mapping the `(x, y)` of each kept
sample point `vertex[edge[0]] + (k / e_density) * len * u` through `movexy`;
the first `behinds_index` entries of `behinds` are the same enumeration
restricted to the samples sent to `behinds`. The walk along an edge starts at
`vertex[edge[0]]` (`k = 0`) and, for an edge whose length is not zero, ends at
`vertex[edge[1]]` (`k = e_density`). -/
theorem sampling_buffers_in_order (w : world R) (s : shape R)
    (_hv : valid_edges s) (hd : 1 ≤ s.e_density) :
    (List.range (sampling w s).fronts_index.toNat).map
        (fun (j : Nat) => (sampling w s).fronts (j : Int)) =
      ((edge_k_order s).filter (kept_in_fronts w s)).map (spec_cell w s) ∧
    (List.range (sampling w s).behinds_index.toNat).map
        (fun (j : Nat) => (sampling w s).behinds (j : Int)) =
      ((edge_k_order s).filter (kept_in_behinds w s)).map (spec_cell w s) ∧
    (sampling w s).fronts_index =
      (((edge_k_order s).filter (kept_in_fronts w s)).length : Int) ∧
    (sampling w s).behinds_index =
      (((edge_k_order s).filter (kept_in_behinds w s)).length : Int) ∧
    (∀ i, spec_sample w.sqrt s i 0 = s.vertices (s.edges i).edge0) ∧
    (∀ i, edge_len w.sqrt s i ≠ 0 →
      spec_sample w.sqrt s i s.e_density = s.vertices (s.edges i).edge1) := by
  have hpt : ∀ i k : Nat, edge_point w.sqrt s i k = spec_sample w.sqrt s i k :=
    fun _ _ => rfl
  have hcell : (fun p : Nat × Nat => edge_cell w s p.1 p.2) = spec_cell w s := by
    funext p
    simp only [edge_cell, spec_cell, hpt]
  have hres : ∀ p : Nat × Nat, occlude_val w s p.1 p.2 = spec_result w s p := by
    intro p
    simp only [occlude_val, spec_result, hpt]
  have hkf : to_fronts w s = kept_in_fronts w s := by
    funext p
    simp only [to_fronts, discarded, kept_in_fronts, hres]
    by_cases h1 : s.occlusion = occ_method.CONVEX ∧ spec_result w s p ≠ 0 <;>
      by_cases h2 : spec_result w s p = 1 <;> simp [h1, h2]
  have hkb : to_behinds w s = kept_in_behinds w s := by
    funext p
    simp only [to_behinds, discarded, kept_in_behinds, hres]
    by_cases h1 : s.occlusion = occ_method.CONVEX ∧ spec_result w s p ≠ 0 <;>
      by_cases h2 : spec_result w s p = 1 <;> simp [h1, h2]
  have e := sampling_eq w s
  rw [sample_order_eq_edge_k_order] at e
  simp only [front_cells, behind_cells, hkf, hkb, hcell] at e
  rw [e]
  simp only [Int.toNat_ofNat]
  refine ⟨read_write_cells _ _, read_write_cells _ _, ?_, ?_,
    fun i => (spec_sample_ends w.sqrt s i).1,
    fun i hl => (spec_sample_ends w.sqrt s i).2 hd hl⟩
  · simp
  · simp

/-- The bar under the depth test: every sample has `z = 0` and is sent to
`behinds`, whose first five entries are the cells of the points
`x = 0, 1, 2, 3, 4`, from `vertex[edge[0]]` to `vertex[edge[1]]`. -/
theorem sampling_buffers_in_order_witness :
    valid_edges (bar ℚ) ∧ 1 ≤ (bar ℚ).e_density ∧
    (sampling depth_world (bar ℚ)).fronts_index = 0 ∧
    (sampling depth_world (bar ℚ)).behinds_index = 5 ∧
    (List.range 5).map (fun (j : Nat) => (sampling depth_world (bar ℚ)).behinds (j : Int)) =
      [⟨40, 12⟩, ⟨49, 12⟩, ⟨59, 12⟩, ⟨68, 12⟩, ⟨78, 12⟩] := by
  obtain ⟨_, hb, hfi, hbi, _, _⟩ :=
    sampling_buffers_in_order depth_world (bar ℚ) bar_valid_edges (by decide)
  obtain ⟨c0, c1, c2, c3, c4⟩ := bar_spec_cell
  have hkb : ∀ k, kept_in_behinds depth_world (bar ℚ) (0, k) = true := by
    intro k
    have hocc : (bar ℚ).occlusion = occ_method.NONE := rfl
    simp [kept_in_behinds, bar_spec_result, hocc]
  have hkf : ∀ k, kept_in_fronts depth_world (bar ℚ) (0, k) = false := by
    intro k
    simp [kept_in_fronts, bar_spec_result]
  rw [bar_edge_k_order] at hb hfi hbi
  simp only [List.filter, hkb, hkf, List.map_cons, List.map_nil, c0, c1, c2, c3, c4,
    List.length_cons, List.length_nil] at hb hfi hbi
  have hbi5 : (sampling depth_world (bar ℚ)).behinds_index = 5 := by
    rw [hbi]
    rfl
  have hfi0 : (sampling depth_world (bar ℚ)).fronts_index = 0 := by
    rw [hfi]
    rfl
  rw [hbi5] at hb
  exact ⟨bar_valid_edges, by decide, hfi0, hbi5, hb⟩

/-- C17: for a shape with valid edge indices, `e_density ≥ 1` and scratch
buffers of capacity at least `num_e * (e_density + 1)`, whatever the occlusion
mode and test: the sampling loop is the run of the passes of the inner loop
over the samples in order; when a pass is about to run, both write indices
are non-negative and strictly below the capacity of their buffer, the pass
changes no entry other than the one at the write index, and before and after
the pass `fronts_index + behinds_index ≤ num_e * (e_density + 1)`; and every
index the draw loops read (`j < index - 1`) holds a cell written by this
call. -/
theorem print_edges_writes_in_bounds (w : world R) (s : shape R)
    (cap_fronts cap_behinds : Int) (_hv : valid_edges s) (_hd : 1 ≤ s.e_density)
    (hcf : (s.num_e : Int) * ((s.e_density : Int) + 1) ≤ cap_fronts)
    (hcb : (s.num_e : Int) * ((s.e_density : Int) + 1) ≤ cap_behinds) :
    sampling w s =
      (sample_order s s.num_e).foldl (pair_step w s) ⟨s.fronts, s.behinds, 0, 0⟩ ∧
    (∀ (done : List (Nat × Nat)) (p : Nat × Nat) (rest : List (Nat × Nat)),
      sample_order s s.num_e = done ++ p :: rest →
      ∀ st : edge_bufs, st = done.foldl (pair_step w s) ⟨s.fronts, s.behinds, 0, 0⟩ →
        0 ≤ st.fronts_index ∧ st.fronts_index < cap_fronts ∧
        0 ≤ st.behinds_index ∧ st.behinds_index < cap_behinds ∧
        st.fronts_index + st.behinds_index ≤ (s.num_e : Int) * ((s.e_density : Int) + 1) ∧
        (pair_step w s st p).fronts_index + (pair_step w s st p).behinds_index ≤
          (s.num_e : Int) * ((s.e_density : Int) + 1) ∧
        (∀ j, (pair_step w s st p).fronts j ≠ st.fronts j → j = st.fronts_index) ∧
        (∀ j, (pair_step w s st p).behinds j ≠ st.behinds j → j = st.behinds_index)) ∧
    (sampling w s).fronts_index + (sampling w s).behinds_index ≤
      (s.num_e : Int) * ((s.e_density : Int) + 1) ∧
    (∀ j : Nat, (j : Int) < (sampling w s).fronts_index - 1 →
      ∃ h : j < (front_cells w s (sample_order s s.num_e)).length,
        (sampling w s).fronts (j : Int) =
          (front_cells w s (sample_order s s.num_e)).get ⟨j, h⟩) ∧
    (∀ j : Nat, (j : Int) < (sampling w s).behinds_index - 1 →
      ∃ h : j < (behind_cells w s (sample_order s s.num_e)).length,
        (sampling w s).behinds (j : Int) =
          (behind_cells w s (sample_order s s.num_e)).get ⟨j, h⟩) := by
  have hN := sample_order_length s s.num_e
  refine ⟨edge_loop_eq_foldl w s s.num_e _, ?_, sampling_total_le w s, ?_, ?_⟩
  · intro done p rest hsplit st hst
    have hlen : done.length + 1 + rest.length = s.num_e * (s.e_density + 1) := by
      rw [← hN, hsplit, List.length_append, List.length_cons]
      omega
    have hk := kept_length w s done
    have hfl := List.length_filter_le (fun q => !discarded w s q) done
    have hk1 := kept_length w s (done ++ [p])
    have hfl1 := List.length_filter_le (fun q => !discarded w s q) (done ++ [p])
    rw [List.length_append, List.length_singleton] at hfl1
    have hst1 : pair_step w s st p =
        (done ++ [p]).foldl (pair_step w s) ⟨s.fronts, s.behinds, 0, 0⟩ := by
      rw [List.foldl_append, ← hst]
      rfl
    have hcapN : ((s.num_e * (s.e_density + 1) : Nat) : Int) =
        (s.num_e : Int) * ((s.e_density : Int) + 1) := by
      push_cast
      ring
    rw [foldl_pair_step] at hst hst1
    refine ⟨?_, ?_, ?_, ?_, ?_, ?_, (pair_step_writes w s st p).1,
      (pair_step_writes w s st p).2⟩
    · rw [hst]
      simp only
      omega
    · rw [hst]
      simp only
      omega
    · rw [hst]
      simp only
      omega
    · rw [hst]
      simp only
      omega
    · rw [hst]
      simp only
      omega
    · rw [hst1]
      simp only
      omega
  · intro j hj
    rw [sampling_eq] at hj ⊢
    simp only at hj
    have h : j < (front_cells w s (sample_order s s.num_e)).length := by omega
    have e := write_cells_get s.fronts 0 _ j h
    simp only [zero_add] at e
    exact ⟨h, e⟩
  · intro j hj
    rw [sampling_eq] at hj ⊢
    simp only at hj
    have h : j < (behind_cells w s (sample_order s s.num_e)).length := by omega
    have e := write_cells_get s.behinds 0 _ j h
    simp only [zero_add] at e
    exact ⟨h, e⟩

theorem print_edges_writes_in_bounds_witness :
    valid_edges (rod ℚ occ_method.OTHER 2) ∧ 1 ≤ (rod ℚ occ_method.OTHER 2).e_density ∧
    ((rod ℚ occ_method.OTHER 2).num_e : Int) *
      (((rod ℚ occ_method.OTHER 2).e_density : Int) + 1) ≤ 3 ∧
    (sampling depth_world (rod ℚ occ_method.OTHER 2)).fronts_index +
      (sampling depth_world (rod ℚ occ_method.OTHER 2)).behinds_index ≤ 3 :=
  ⟨rod_valid_edges _ _, by decide, by decide,
    (print_edges_writes_in_bounds depth_world (rod ℚ occ_method.OTHER 2) 3 3
      (rod_valid_edges _ _) (by decide) (by decide) (by decide)).2.2.1⟩

/-- C18: two shapes that agree on vertices, edges and configuration and
differ in any way in what their `fronts` and `behinds` buffers hold give, for
the same window and the same occlusion test (the test is the same function of
the point and the edge context on the two shapes), the same sequence of calls
of `mvprintw` from `print_shape`. -/
theorem print_shape_same_draws (w : world R) (s1 s2 : shape R)
    (h : same_but_scratch s1 s2) (hocc : w.occlude_point s1 = w.occlude_point s2) :
    (print_shape w s1).2 = (print_shape w s2).2 := by
  have e := eq_of_same_but_scratch s1 s2 h
  rw [e] at hocc ⊢
  exact (print_shape_scratch w s1 s2.fronts s2.behinds hocc.symm).symm

theorem print_shape_same_draws_witness :
    same_but_scratch (rod ℚ occ_method.OTHER 2)
      { rod ℚ occ_method.OTHER 2 with fronts := fun _ => ⟨7, 7⟩, behinds := fun _ => ⟨9, 9⟩ } ∧
    depth_world.occlude_point (rod ℚ occ_method.OTHER 2) =
      depth_world.occlude_point
        { rod ℚ occ_method.OTHER 2 with
          fronts := fun _ => ⟨7, 7⟩, behinds := fun _ => ⟨9, 9⟩ } ∧
    (rod ℚ occ_method.OTHER 2).fronts 0 ≠
      ({ rod ℚ occ_method.OTHER 2 with
          fronts := fun _ => ⟨7, 7⟩, behinds := fun _ => ⟨9, 9⟩ } : shape ℚ).fronts 0 ∧
    (print_shape depth_world (rod ℚ occ_method.OTHER 2)).2 =
      (print_shape depth_world
        { rod ℚ occ_method.OTHER 2 with
          fronts := fun _ => ⟨7, 7⟩, behinds := fun _ => ⟨9, 9⟩ }).2 :=
  ⟨⟨rfl, rfl, rfl, rfl, rfl, rfl, rfl, rfl, rfl, rfl⟩, rfl, by decide,
    print_shape_same_draws depth_world _ _
      ⟨rfl, rfl, rfl, rfl, rfl, rfl, rfl, rfl, rfl, rfl⟩ rfl⟩

end Claims

end TermShapes
